import Mathlib

/-!
# Verification of the torchqdynamics / dynamiqs integration engine

This file gives a shallow embedding, in Lean 4, of the parts of the
`pierreguilmin/torchqdynamics` repository that the verified claims are about:

* the Rouchon order-1 / order-1.5 master-equation step functions
  (`torchqdynamics/mesolve/rouchon.py`, `torchqdynamics/mesolve.py`,
  `dynamiqs/integrators/mesolve/rouchon_integrator.py`);
* the adaptive step-size controller (`torchqdynamics/solvers/integrators/
  adaptive_integrator.py`: `init_tstep`, `update_tstep`);
* the fixed-step forward driver and its save-times check
  (`dynamiqs/solvers/ode/fixed_solver.py`, `dynamiqs/solvers/solver.py`);
* the adjoint checkpointed backward driver
  (`dynamiqs/solvers/ode/adjoint_autograd.py`);
* the sparse diagonal-format operator addition
  (`dynamiqs/qarrays/sparse_qarray.py`).

Complex floating-point scalars are embedded as exact complex rationals (`QC`
below), so that all matrix computations are executable and decidable; the
purely real floating-point arithmetic of the adaptive controller is embedded
as real numbers `ℝ` (it uses fractional powers).
-/

/-- Complex numbers with rational coordinates: an executable stand-in for the
complex scalar dtype of the tensors in the source. -/
structure QC where
  re : ℚ
  im : ℚ
deriving DecidableEq, Repr

namespace QC

instance : Zero QC := ⟨⟨0, 0⟩⟩
instance : One QC := ⟨⟨1, 0⟩⟩
instance : Add QC := ⟨fun z w => ⟨z.re + w.re, z.im + w.im⟩⟩
instance : Neg QC := ⟨fun z => ⟨-z.re, -z.im⟩⟩
instance : Mul QC := ⟨fun z w => ⟨z.re * w.re - z.im * w.im, z.re * w.im + z.im * w.re⟩⟩
instance : Inv QC := ⟨fun z => ⟨z.re / (z.re ^ 2 + z.im ^ 2), -z.im / (z.re ^ 2 + z.im ^ 2)⟩⟩

@[simp] theorem zero_re : (0 : QC).re = 0 := rfl
@[simp] theorem zero_im : (0 : QC).im = 0 := rfl
@[simp] theorem one_re : (1 : QC).re = 1 := rfl
@[simp] theorem one_im : (1 : QC).im = 0 := rfl
@[simp] theorem add_re (z w : QC) : (z + w).re = z.re + w.re := rfl
@[simp] theorem add_im (z w : QC) : (z + w).im = z.im + w.im := rfl
@[simp] theorem neg_re (z : QC) : (-z).re = -z.re := rfl
@[simp] theorem neg_im (z : QC) : (-z).im = -z.im := rfl
@[simp] theorem mul_re (z w : QC) : (z * w).re = z.re * w.re - z.im * w.im := rfl
@[simp] theorem mul_im (z w : QC) : (z * w).im = z.re * w.im + z.im * w.re := rfl
@[simp] theorem inv_re (z : QC) : z⁻¹.re = z.re / (z.re ^ 2 + z.im ^ 2) := rfl
@[simp] theorem inv_im (z : QC) : z⁻¹.im = -z.im / (z.re ^ 2 + z.im ^ 2) := rfl

theorem ext2 : ∀ {z w : QC}, z.re = w.re → z.im = w.im → z = w
  | ⟨_, _⟩, ⟨_, _⟩, rfl, rfl => rfl

instance : NatCast QC := ⟨fun m => ⟨m, 0⟩⟩
instance : IntCast QC := ⟨fun k => ⟨k, 0⟩⟩

@[simp] theorem natCast_re (m : ℕ) : ((m : QC)).re = m := rfl
@[simp] theorem natCast_im (m : ℕ) : ((m : QC)).im = 0 := rfl
@[simp] theorem intCast_re (k : ℤ) : ((k : QC)).re = k := rfl
@[simp] theorem intCast_im (k : ℤ) : ((k : QC)).im = 0 := rfl

theorem natCast_succ0 (m : ℕ) : ((m + 1 : ℕ) : QC) = (m : QC) + 1 := by
  apply ext2 <;> simp

theorem intCast_ofNat0 (m : ℕ) : ((m : ℤ) : QC) = (m : QC) := by
  apply ext2 <;> simp

theorem intCast_negSucc0 (m : ℕ) : ((Int.negSucc m : ℤ) : QC) = -((m + 1 : ℕ) : QC) := by
  apply ext2 <;> simp [Int.negSucc_eq] <;> push_cast <;> ring

instance : CommRing QC where
  add_assoc a b c := by apply ext2 <;> simp <;> ring
  zero_add a := by apply ext2 <;> simp
  add_zero a := by apply ext2 <;> simp
  add_comm a b := by apply ext2 <;> simp <;> ring
  left_distrib a b c := by apply ext2 <;> simp <;> ring
  right_distrib a b c := by apply ext2 <;> simp <;> ring
  zero_mul a := by apply ext2 <;> simp
  mul_zero a := by apply ext2 <;> simp
  mul_assoc a b c := by apply ext2 <;> simp <;> ring
  one_mul a := by apply ext2 <;> simp
  mul_one a := by apply ext2 <;> simp
  mul_comm a b := by apply ext2 <;> simp <;> ring
  neg_add_cancel a := by apply ext2 <;> simp
  nsmul := nsmulRec
  zsmul := zsmulRec
  natCast := Nat.cast
  intCast := Int.cast
  natCast_zero := by apply ext2 <;> simp
  natCast_succ := natCast_succ0
  intCast_ofNat := intCast_ofNat0
  intCast_negSucc := intCast_negSucc0

theorem sq_add_sq_ne_zero {z : QC} (h : z ≠ 0) : z.re ^ 2 + z.im ^ 2 ≠ 0 := by
  intro h0
  apply h
  have hre : z.re = 0 := by nlinarith [sq_nonneg z.re, sq_nonneg z.im]
  have him : z.im = 0 := by nlinarith [sq_nonneg z.re, sq_nonneg z.im]
  apply ext2 <;> simp [hre, him]

theorem mul_inv_cancel0 (a : QC) (ha : a ≠ 0) : a * a⁻¹ = 1 := by
  have hd := sq_add_sq_ne_zero ha
  apply ext2 <;> simp <;> field_simp <;> ring

theorem zero_ne_one0 : (0 : QC) ≠ 1 := by
  intro h
  have h2 := congrArg QC.re h
  norm_num at h2

theorem inv_zero0 : (0 : QC)⁻¹ = 0 := by
  apply ext2 <;> simp

instance : Field QC where
  exists_pair_ne := ⟨0, 1, zero_ne_one0⟩
  mul_inv_cancel := mul_inv_cancel0
  inv_zero := inv_zero0
  nnqsmul := _
  qsmul := _

/-- Complex conjugation (the `star` operation). -/
def conj (z : QC) : QC := ⟨z.re, -z.im⟩

@[simp] theorem conj_re (z : QC) : (conj z).re = z.re := rfl
@[simp] theorem conj_im (z : QC) : (conj z).im = -z.im := rfl

theorem conj_conj (z : QC) : conj (conj z) = z := by apply ext2 <;> simp

theorem conj_mul2 (z w : QC) : conj (z * w) = conj w * conj z := by
  apply ext2 <;> simp <;> ring

theorem conj_add2 (z w : QC) : conj (z + w) = conj z + conj w := by
  apply ext2 <;> simp <;> ring

instance : StarRing QC where
  star := conj
  star_involutive := conj_conj
  star_mul := conj_mul2
  star_add := conj_add2

@[simp] theorem star_re (z : QC) : (star z).re = z.re := rfl
@[simp] theorem star_im (z : QC) : (star z).im = -z.im := rfl

@[simp] theorem sub_re (z w : QC) : (z - w).re = z.re - w.re := by
  rw [sub_eq_add_neg, add_re, neg_re, sub_eq_add_neg]

@[simp] theorem sub_im (z w : QC) : (z - w).im = z.im - w.im := by
  rw [sub_eq_add_neg, add_im, neg_im, sub_eq_add_neg]

@[simp] theorem ofNat_re (m : ℕ) [m.AtLeastTwo] :
    (no_index (OfNat.ofNat m) : QC).re = OfNat.ofNat m := by
  rw [show (OfNat.ofNat m : QC) = ((OfNat.ofNat m : ℕ) : QC) from rfl, natCast_re,
    Nat.cast_ofNat]

@[simp] theorem ofNat_im (m : ℕ) [m.AtLeastTwo] :
    (no_index (OfNat.ofNat m) : QC).im = 0 := rfl

/-- The imaginary unit (the source's `1j`). -/
def I : QC := ⟨0, 1⟩

@[simp] theorem I_re : I.re = 0 := rfl
@[simp] theorem I_im : I.im = 1 := rfl

/-- The real part of a complex scalar, as a complex scalar with zero imaginary
part: the embedding of the source's `.real` followed by the implicit cast back
to the complex dtype when it is used to divide a complex tensor. -/
def reC (z : QC) : QC := ⟨z.re, 0⟩

@[simp] theorem reC_re (z : QC) : (reC z).re = z.re := rfl
@[simp] theorem reC_im (z : QC) : (reC z).im = 0 := rfl

end QC

/-! ## Matrices over `QC` and shared quantum helpers -/

open Matrix in
/-- Square complex matrices of size `n`, the embedding of the `(n, n)` complex
tensors operated on by the master-equation solvers. -/
abbrev Mat (n : ℕ) := Matrix (Fin n) (Fin n) QC

open Matrix

/-- Modelled from the spec: `kraus_map(rho, M)` (in `torchqdynamics/solver_utils.py`,
not included under `src/`) applies the Kraus map `ρ ↦ Σ_k M_k ρ M_k†`, summing
over the operator axis of the stacked Kraus operators `M`; the glossary defines a
Kraus map as exactly this linear map. -/
def kraus_map {n : ℕ} (ρ : Mat n) (Ms : List (Mat n)) : Mat n :=
  (Ms.map (fun M => M * ρ * Mᴴ)).sum

/-- The `sum_nojump` tensor of `MERouchon.__init__`:
`(jump_ops.adjoint() @ jump_ops).sum(dim=0)`, i.e. `Σ_k L_k† L_k`. -/
def sum_nojump {n : ℕ} (Ls : List (Mat n)) : Mat n :=
  (Ls.map (fun L => Lᴴ * L)).sum

theorem list_sum_mul_right {n : ℕ} (l : List (Mat n)) (B : Mat n) :
    l.sum * B = (l.map (· * B)).sum := by
  induction l with
  | nil => simp
  | cons A l ih => simp [add_mul, ih]

theorem trace_list_sum {n : ℕ} (l : List (Mat n)) :
    Matrix.trace l.sum = (l.map Matrix.trace).sum := by
  induction l with
  | nil => simp
  | cons A l ih => simp [ih]

theorem list_sum_map_smul {n : ℕ} {α : Type} (l : List α) (c : QC) (f : α → Mat n) :
    (l.map (fun x => c • f x)).sum = c • (l.map f).sum := by
  induction l with
  | nil => simp
  | cons A l ih => simp [ih, smul_add]

/-- The trace of a Kraus map application, rewritten with the cyclic property. -/
theorem trace_kraus_map {n : ℕ} (ρ : Mat n) (Ms : List (Mat n)) :
    Matrix.trace (kraus_map ρ Ms) = Matrix.trace ((Ms.map (fun M => Mᴴ * M)).sum * ρ) := by
  induction Ms with
  | nil => simp [kraus_map]
  | cons M Ms ih =>
    have h1 : kraus_map ρ (M :: Ms) = M * ρ * Mᴴ + kraus_map ρ Ms := by
      simp [kraus_map]
    have h2 : ((M :: Ms).map (fun M => Mᴴ * M)).sum * ρ
        = Mᴴ * M * ρ + (Ms.map (fun M => Mᴴ * M)).sum * ρ := by
      simp [add_mul]
    rw [h1, h2, trace_add, trace_add, ih, Matrix.trace_mul_cycle]

/-- A scaled Kraus term: `(c•L) ρ (c•L)† = (c·c̄)·(L ρ L†)`; with `c` the exact
real square root of `dt` this is `dt·(L ρ L†)`. -/
theorem kraus_term_smul {n : ℕ} (c dt : QC) (hc : c * c = dt) (hstar : star c = c)
    (L ρ : Mat n) : (c • L) * ρ * (c • L)ᴴ = dt • (L * ρ * Lᴴ) := by
  rw [Matrix.conjTranspose_smul, hstar, smul_mul_assoc, smul_mul_assoc, mul_smul_comm,
    smul_smul, hc]

theorem I_mul_I : QC.I * QC.I = -1 := by
  apply QC.ext2 <;> simp

/-- The two equivalent forms of the order-1 Kraus operator `M0`:
`I - i·dt·(H - ½i·D) = I - dt·(i·H + ½·D)`. -/
theorem M0_two_forms {n : ℕ} (H D : Mat n) (dt : QC) :
    (1 : Mat n) - (QC.I * dt) • (H - ((1/2 : QC) * QC.I) • D) =
      (1 : Mat n) - dt • (QC.I • H + (1/2 : QC) • D) := by
  have h2 : (QC.I * dt) * ((1/2 : QC) * QC.I) = -(dt * (1/2 : QC)) := by
    apply QC.ext2 <;> simp <;> ring
  calc (1 : Mat n) - (QC.I * dt) • (H - ((1/2 : QC) * QC.I) • D)
      = 1 - ((QC.I * dt) • H - ((QC.I * dt) * ((1/2 : QC) * QC.I)) • D) := by
        rw [smul_sub, smul_smul]
    _ = 1 - ((dt * QC.I) • H + (dt * (1/2 : QC)) • D) := by
        rw [h2, neg_smul, sub_neg_eq_add, mul_comm QC.I dt]
    _ = 1 - dt • (QC.I • H + (1/2 : QC) • D) := by
        rw [smul_add, smul_smul, smul_smul]

/-! ## C1: the Rouchon order-1 forward step -/

/-- `MERouchon1.forward` (`torchqdynamics/mesolve/rouchon.py`, lines 35-58; the
variant in `torchqdynamics/mesolve.py` lines 144-165 is identical with `dt`
passed as an argument).  `sdt` stands for the float `sqrt(dt)`; it is passed as
an exact real square root of `dt`. -/
def MERouchon1_forward {n : ℕ} (H : Mat n) (Ls : List (Mat n)) (dt sdt : QC)
    (ρ : Mat n) : Mat n :=
  let H_nh := H - ((1/2 : QC) * QC.I) • sum_nojump Ls
  let M0 := (1 : Mat n) - (QC.I * dt) • H_nh
  let M1s := Ls.map (fun L => sdt • L)
  let ρ1 := kraus_map ρ [M0] + kraus_map ρ M1s
  (QC.reC (Matrix.trace ρ1))⁻¹ • ρ1

/-- The `M0` of the claim: `I − dt·(iH + ½ΣL†L)`. -/
def rouchon1_claimed_M0 {n : ℕ} (H : Mat n) (Ls : List (Mat n)) (dt : QC) : Mat n :=
  (1 : Mat n) - dt • (QC.I • H + (1/2 : QC) • sum_nojump Ls)

/-- The unnormalized next state of the claim:
`M0·ρ·M0† + Σ_k M1_k·ρ·M1_k†` with `M1_k = √dt·L_k` (so each jump term is
`dt·L_k·ρ·L_k†`). -/
def rouchon1_claimed_map {n : ℕ} (H : Mat n) (Ls : List (Mat n)) (dt : QC)
    (ρ : Mat n) : Mat n :=
  rouchon1_claimed_M0 H Ls dt * ρ * (rouchon1_claimed_M0 H Ls dt)ᴴ +
    (Ls.map (fun L => dt • (L * ρ * Lᴴ))).sum

/-- `MESolveRouchon1Integrator.terms.kraus_map`
(`dynamiqs/integrators/mesolve/rouchon_integrator.py`, lines 64-92): the loop
accumulates `Ls_tot`, `LdL_tot` and `second_term`, then applies
`M0 = I - (iH(t0) + ½·LdL_tot)·Δt`.  `sdel` stands for `jnp.sqrt(delta_t)`,
passed as an exact real square root of `t1 - t0`. -/
def MESolveRouchon1_kraus_map {n : ℕ} (H : QC → Mat n) (Ls : List (QC → Mat n))
    (sdel : QC) (t0 t1 : QC) (y0 : Mat n) : Mat n :=
  let delta_t := t1 - t0
  let acc := Ls.foldl
    (fun (acc : Mat n × Mat n × Mat n) L =>
      let L_t0 := L t0
      (acc.1 + L_t0, acc.2.1 + L_t0ᴴ * L_t0,
        acc.2.2 + (sdel • L_t0) * y0 * (sdel • L_t0)ᴴ))
    (0, 0, 0)
  let M0 := (1 : Mat n) - delta_t • (QC.I • H t0 + (1/2 : QC) • acc.2.1)
  M0 * y0 * M0ᴴ + acc.2.2

theorem dq_fold_spec {n : ℕ} {α : Type} (l : List α) (g : α → Mat n) (sdel : QC)
    (y0 : Mat n) (a b c : Mat n) :
    l.foldl
      (fun (acc : Mat n × Mat n × Mat n) L =>
        (acc.1 + g L, acc.2.1 + (g L)ᴴ * g L,
          acc.2.2 + (sdel • g L) * y0 * (sdel • g L)ᴴ))
      (a, b, c) =
    (a + (l.map g).sum, b + (l.map (fun L => (g L)ᴴ * g L)).sum,
      c + (l.map (fun L => (sdel • g L) * y0 * (sdel • g L)ᴴ)).sum) := by
  induction l generalizing a b c with
  | nil => simp
  | cons L l ih =>
    simp only [List.foldl_cons, List.map_cons, List.sum_cons]
    rw [ih]
    refine Prod.ext ?_ (Prod.ext ?_ ?_) <;> simp [add_assoc]

/-- C1: For every density matrix `ρ` and fixed step `dt`, the Rouchon order-1
forward step returns `(M0 ρ M0† + Σ_k M1_k ρ M1_k†)` divided by the real part
of its trace, where `M0 = I − dt·(iH + ½ΣL†L)` (the code computes the
equivalent `I − i·dt·(H − ½i·ΣL†L)`) and `M1_k = √dt·L_k`; and the dynamiqs
Rouchon-1 `kraus_map` term computes exactly the same un-renormalized map with
`dt = t1 − t0`. -/
theorem C1_rouchon1_forward {n : ℕ} (H : Mat n) (Ls : List (Mat n)) (dt sdt : QC)
    (hs : sdt * sdt = dt) (hstar : star sdt = sdt) (ρ : Mat n)
    (Hd : QC → Mat n) (Lds : List (QC → Mat n)) (sdel t0 t1 : QC)
    (hsd : sdel * sdel = t1 - t0) (hsdstar : star sdel = sdel) (y0 : Mat n) :
    MERouchon1_forward H Ls dt sdt ρ =
      (QC.reC (Matrix.trace (rouchon1_claimed_map H Ls dt ρ)))⁻¹ •
        rouchon1_claimed_map H Ls dt ρ ∧
    MESolveRouchon1_kraus_map Hd Lds sdel t0 t1 y0 =
      rouchon1_claimed_map (Hd t0) (Lds.map (fun L => L t0)) (t1 - t0) y0 := by
  constructor
  · have hM0 : (1 : Mat n) - (QC.I * dt) • (H - ((1/2 : QC) * QC.I) • sum_nojump Ls)
        = rouchon1_claimed_M0 H Ls dt := M0_two_forms H (sum_nojump Ls) dt
    have hjump : kraus_map ρ (Ls.map (fun L => sdt • L))
        = (Ls.map (fun L => dt • (L * ρ * Lᴴ))).sum := by
      rw [kraus_map, List.map_map]
      congr 1
      apply List.map_congr_left
      intro L _
      exact kraus_term_smul sdt dt hs hstar L ρ
    simp only [MERouchon1_forward]
    rw [hM0, hjump]
    have h1 : kraus_map ρ [rouchon1_claimed_M0 H Ls dt]
        = rouchon1_claimed_M0 H Ls dt * ρ * (rouchon1_claimed_M0 H Ls dt)ᴴ := by
      simp [kraus_map]
    rw [h1, rouchon1_claimed_map]
  · simp only [MESolveRouchon1_kraus_map]
    rw [dq_fold_spec]
    have hsum : (Lds.map (fun L => (L t0)ᴴ * L t0)).sum
        = sum_nojump (Lds.map (fun L => L t0)) := by
      rw [sum_nojump, List.map_map]
      rfl
    have hterm : (Lds.map (fun L => (sdel • L t0) * y0 * (sdel • L t0)ᴴ)).sum
        = ((Lds.map (fun L => L t0)).map (fun L => (t1 - t0) • (L * y0 * Lᴴ))).sum := by
      rw [List.map_map]
      congr 1
      apply List.map_congr_left
      intro L _
      exact kraus_term_smul sdel (t1 - t0) hsd hsdstar (L t0) y0
    rw [hsum, hterm, rouchon1_claimed_map, rouchon1_claimed_M0]
    simp

/-! ## C5: the Rouchon order-1.5 forward step preserves the trace -/

/-- `MERouchon1_5.forward` (`torchqdynamics/mesolve/rouchon.py`, lines 86-117;
the variant in `torchqdynamics/mesolve.py` lines 171-199 is identical with `dt`
as an argument).  The code computes `S_inv_sqrtm = inv_sqrtm(S)`; `inv_sqrtm`
(in `torchqdynamics/solver_utils.py`) is not included under `src/`, and the
claim assumes it returns the exact inverse square root, so the matrix
`S_inv_sqrtm` is a parameter here.  Note there is no trace-renormalization
division in this scheme. -/
def MERouchon1_5_forward {n : ℕ} (H : Mat n) (Ls : List (Mat n)) (dt sdt : QC)
    (S_inv_sqrtm : Mat n) (ρ : Mat n) : Mat n :=
  let H_nh := H - ((1/2 : QC) * QC.I) • sum_nojump Ls
  let M0 := (1 : Mat n) - (QC.I * dt) • H_nh
  let Ms := Ls.map (fun L => sdt • L)
  let ρ1 := kraus_map ρ [S_inv_sqrtm]
  kraus_map ρ1 [M0] + kraus_map ρ1 Ms

/-- The normalization matrix `S = M0†M0 + dt·ΣL†L` built by
`MERouchon1_5.forward`. -/
def rouchon_S {n : ℕ} (H : Mat n) (Ls : List (Mat n)) (dt : QC) : Mat n :=
  let H_nh := H - ((1/2 : QC) * QC.I) • sum_nojump Ls
  let M0 := (1 : Mat n) - (QC.I * dt) • H_nh
  M0ᴴ * M0 + dt • sum_nojump Ls

/-- If `A·A` is a two-sided inverse of `S` then `A·S·A = 1`
(the key property of an exact inverse square root). -/
theorem sandwich_one {n : ℕ} {A S : Mat n} (h1 : A * A * S = 1)
    (h2 : S * (A * A) = 1) : A * S * A = 1 := by
  have hr : A * (A * S) = 1 := by rw [← mul_assoc]; exact h1
  have hl : S * A * A = 1 := by rw [mul_assoc]; exact h2
  have key : S * A = A * S := by
    have e1 : S * A * (A * (A * S)) = S * A := by rw [hr, mul_one]
    have e2 : S * A * (A * (A * S)) = A * S := by
      rw [← mul_assoc (S * A) A (A * S), hl, one_mul]
    exact e1.symm.trans e2
  rw [mul_assoc, key, ← mul_assoc]
  exact h1

/-- C5: assuming `S_inv_sqrtm` is the exact (Hermitian, two-sided) inverse
square root of `S = M0†M0 + dt·ΣL†L`, the Rouchon order-1.5 forward step
preserves the trace exactly: `tr(σ) = tr(ρ)` — and the definition applies no
trace-renormalization division. -/
theorem C5_rouchon15_trace_preserving {n : ℕ} (H : Mat n) (Ls : List (Mat n))
    (dt sdt : QC) (Sinv ρ : Mat n)
    (hs : sdt * sdt = dt) (hstar : star sdt = sdt) (hherm : Sinvᴴ = Sinv)
    (h1 : Sinv * Sinv * rouchon_S H Ls dt = 1)
    (h2 : rouchon_S H Ls dt * (Sinv * Sinv) = 1) :
    Matrix.trace (MERouchon1_5_forward H Ls dt sdt Sinv ρ) = Matrix.trace ρ := by
  have hρ1 : kraus_map ρ [Sinv] = Sinv * ρ * Sinv := by
    simp [kraus_map, hherm]
  have hMs : ((Ls.map (fun L => sdt • L)).map (fun M => Mᴴ * M)).sum
      = dt • sum_nojump Ls := by
    rw [List.map_map]
    have hfun : ∀ L : Mat n, (sdt • L)ᴴ * (sdt • L) = dt • (Lᴴ * L) := by
      intro L
      rw [Matrix.conjTranspose_smul, hstar, smul_mul_assoc, mul_smul_comm,
        smul_smul, hs]
    calc (Ls.map (fun L => (sdt • L)ᴴ * (sdt • L))).sum
        = (Ls.map (fun L => dt • (Lᴴ * L))).sum := by
          congr 1
          apply List.map_congr_left
          intro L _
          exact hfun L
      _ = dt • sum_nojump Ls := by rw [list_sum_map_smul, sum_nojump]
  simp only [MERouchon1_5_forward]
  rw [trace_add, trace_kraus_map, trace_kraus_map, hMs]
  have hM0sum : (([(1 : Mat n) - (QC.I * dt) •
      (H - ((1/2 : QC) * QC.I) • sum_nojump Ls)]).map (fun M => Mᴴ * M)).sum
      = ((1 : Mat n) - (QC.I * dt) • (H - ((1/2 : QC) * QC.I) • sum_nojump Ls))ᴴ *
        ((1 : Mat n) - (QC.I * dt) • (H - ((1/2 : QC) * QC.I) • sum_nojump Ls)) := by
    simp
  rw [hM0sum, ← trace_add, ← add_mul]
  have hS : ((1 : Mat n) - (QC.I * dt) • (H - ((1/2 : QC) * QC.I) • sum_nojump Ls))ᴴ *
      ((1 : Mat n) - (QC.I * dt) • (H - ((1/2 : QC) * QC.I) • sum_nojump Ls)) +
      dt • sum_nojump Ls = rouchon_S H Ls dt := by
    simp only [rouchon_S]
  rw [hS, hρ1]
  have hASA : Sinv * rouchon_S H Ls dt * Sinv = 1 := sandwich_one h1 h2
  calc Matrix.trace (rouchon_S H Ls dt * (Sinv * ρ * Sinv))
      = Matrix.trace (rouchon_S H Ls dt * Sinv * ρ * Sinv) := by
        rw [mul_assoc, mul_assoc, mul_assoc]
    _ = Matrix.trace (Sinv * (rouchon_S H Ls dt * Sinv * ρ)) :=
        Matrix.trace_mul_comm _ _
    _ = Matrix.trace (Sinv * rouchon_S H Ls dt * Sinv * ρ) := by
        rw [← mul_assoc, ← mul_assoc]
    _ = Matrix.trace ρ := by rw [hASA, one_mul]

/-! ### Concrete 1×1 matrices, used to instantiate witnesses -/

/-- The 1×1 matrix with the given entry. -/
def m1 (z : QC) : Mat 1 := Matrix.of (fun _ _ => z)

@[simp] theorem m1_apply (z : QC) (i j : Fin 1) : m1 z i j = z := rfl

theorem m1_injective {z w : QC} (h : m1 z = m1 w) : z = w := by
  have := congrFun (congrFun h 0) 0
  simpa [m1] using this

@[simp] theorem m1_mul (z w : QC) : m1 z * m1 w = m1 (z * w) := by
  ext i j
  simp [m1, Matrix.mul_apply]

@[simp] theorem m1_add (z w : QC) : m1 z + m1 w = m1 (z + w) := by
  ext i j
  simp [m1]

@[simp] theorem m1_sub (z w : QC) : m1 z - m1 w = m1 (z - w) := by
  ext i j
  simp [m1]

@[simp] theorem m1_smul (c z : QC) : c • m1 z = m1 (c * z) := by
  ext i j
  simp [m1]

@[simp] theorem m1_conjTranspose (z : QC) : (m1 z)ᴴ = m1 (star z) := by
  ext i j
  simp [m1]

@[simp] theorem m1_trace (z : QC) : Matrix.trace (m1 z) = z := by
  simp [m1, Matrix.trace, Matrix.diag]

theorem one_eq_m1 : (1 : Mat 1) = m1 1 := by
  ext i j
  simp [m1, Matrix.one_apply, Fin.eq_zero i, Fin.eq_zero j]

theorem zero_eq_m1 : (0 : Mat 1) = m1 0 := by
  ext i j
  simp [m1]

/-- Witness for C1: the Rouchon-1 step at `n = 1`, `H = ½`, `L = 1+i`,
`dt = 1`, and an empty jump list on the dynamiqs side. -/
theorem C1_rouchon1_forward_witness :
    ((1 : QC) * 1 = 1) ∧ (star (1 : QC) = 1) ∧
    ((0 : QC) * 0 = (0 : QC) - 0) ∧ (star (0 : QC) = 0) ∧
    (MERouchon1_forward (m1 ⟨1/2, 0⟩) [m1 ⟨1, 1⟩] 1 1 (m1 1) =
      (QC.reC (Matrix.trace (rouchon1_claimed_map (m1 ⟨1/2, 0⟩) [m1 ⟨1, 1⟩] 1 (m1 1))))⁻¹ •
        rouchon1_claimed_map (m1 ⟨1/2, 0⟩) [m1 ⟨1, 1⟩] 1 (m1 1) ∧
    MESolveRouchon1_kraus_map (fun _ => m1 0) [] 0 0 0 (m1 1) =
      rouchon1_claimed_map ((fun _ : QC => m1 0) 0)
        (([] : List (QC → Mat 1)).map (fun L => L 0)) ((0 : QC) - 0) (m1 1)) :=
  ⟨mul_one 1, star_one QC, by ring, star_zero QC,
    C1_rouchon1_forward (m1 ⟨1/2, 0⟩) [m1 ⟨1, 1⟩] 1 1 (mul_one 1) (star_one QC)
      (m1 1) (fun _ => m1 0) [] 0 0 0 (by ring) (star_zero QC) (m1 1)⟩

/-- Witness for C5: at `n = 1`, `H = ½`, `L = 1+i`, `dt = 1` the normalization
matrix is `S = 9/4`, whose exact inverse square root is `2/3`. -/
theorem C5_rouchon15_trace_preserving_witness :
    ((1 : QC) * 1 = 1) ∧ (star (1 : QC) = 1) ∧
    ((m1 ⟨2/3, 0⟩)ᴴ = m1 ⟨2/3, 0⟩) ∧
    (m1 ⟨2/3, 0⟩ * m1 ⟨2/3, 0⟩ * rouchon_S (m1 ⟨1/2, 0⟩) [m1 ⟨1, 1⟩] 1 = 1) ∧
    (rouchon_S (m1 ⟨1/2, 0⟩) [m1 ⟨1, 1⟩] 1 * (m1 ⟨2/3, 0⟩ * m1 ⟨2/3, 0⟩) = 1) ∧
    Matrix.trace (MERouchon1_5_forward (m1 ⟨1/2, 0⟩) [m1 ⟨1, 1⟩] 1 1
      (m1 ⟨2/3, 0⟩) (m1 ⟨7, 0⟩)) = Matrix.trace (m1 ⟨7, 0⟩) := by
  have hherm : (m1 (⟨2/3, 0⟩ : QC))ᴴ = m1 ⟨2/3, 0⟩ := by
    rw [m1_conjTranspose]
    exact congrArg m1 (by apply QC.ext2 <;> simp)
  have hS : rouchon_S (m1 ⟨1/2, 0⟩) [m1 ⟨1, 1⟩] 1 = m1 ⟨9/4, 0⟩ := by
    simp only [rouchon_S, sum_nojump, List.map_cons, List.map_nil, List.sum_cons,
      List.sum_nil, add_zero, one_eq_m1, m1_conjTranspose, m1_mul, m1_smul, m1_sub,
      m1_add]
    exact congrArg m1 (by apply QC.ext2 <;> simp <;> norm_num)
  have h1 : m1 (⟨2/3, 0⟩ : QC) * m1 ⟨2/3, 0⟩ * rouchon_S (m1 ⟨1/2, 0⟩) [m1 ⟨1, 1⟩] 1 = 1 := by
    rw [hS, m1_mul, m1_mul, one_eq_m1]
    exact congrArg m1 (by apply QC.ext2 <;> simp <;> norm_num)
  have h2 : rouchon_S (m1 ⟨1/2, 0⟩) [m1 ⟨1, 1⟩] 1 * (m1 (⟨2/3, 0⟩ : QC) * m1 ⟨2/3, 0⟩) = 1 := by
    rw [hS, m1_mul, m1_mul, one_eq_m1]
    exact congrArg m1 (by apply QC.ext2 <;> simp <;> norm_num)
  exact ⟨mul_one 1, star_one QC, hherm, h1, h2,
    C5_rouchon15_trace_preserving (m1 ⟨1/2, 0⟩) [m1 ⟨1, 1⟩] 1 1 (m1 ⟨2/3, 0⟩)
      (m1 ⟨7, 0⟩) (mul_one 1) (star_one QC) hherm h1 h2⟩

/-! ## C2, C3: the adaptive step-size controller

The controller (`torchqdynamics/solvers/integrators/adaptive_integrator.py`)
works on real floating-point scalars with fractional powers; it is embedded
over `ℝ`.  `hairer_norm` (in `torchqdynamics/utils/solver_utils.py`) is not
included under `src/`; for the scalar-state embedding used here its composite
with the batch `.max()` is modelled below. -/

/-- Modelled from the spec: `hairer_norm`, the "scaled root-mean-square error
norm" of the glossary, followed by `.max()` over the batch — for a single
scalar state entry the RMS norm is its absolute value and the max over a
singleton batch is the value itself. -/
noncomputable def hairer_norm_max (y : ℝ) : ℝ := |y|

/-- `AdaptiveIntegrator.update_tstep`
(`torchqdynamics/solvers/integrators/adaptive_integrator.py`, lines 86-104). -/
noncomputable def update_tstep (order : ℕ) (factor min_factor max_factor : ℝ)
    (dt error : ℝ) : ℝ :=
  if error = 0 then dt * max_factor
  else
    let dt_opt := dt * error ^ (-1 / (order : ℝ))
    if error ≤ 1 then dt * min max_factor (max 1 (factor * dt_opt))
    else dt * min 0.9 (max min_factor (factor * dt_opt))

/-- The step-size update as claim C2 states it: `dt` times
`factor·error^(−1/order)` clamped — without the extra factor of `dt` that the
code's `dt_opt = dt·error^(−1/order)` carries into the clamp. -/
noncomputable def update_tstep_claimed (order : ℕ) (factor min_factor max_factor : ℝ)
    (dt error : ℝ) : ℝ :=
  if error = 0 then dt * max_factor
  else if error ≤ 1 then dt * min max_factor (max 1 (factor * error ^ (-1 / (order : ℝ))))
  else dt * min 0.9 (max min_factor (factor * error ^ (-1 / (order : ℝ))))

/-- C2: the code divergence.  At `order = 5`, `factor = 0.9`,
`min_factor = 0.2`, `max_factor = 5`, `dt = 2`, `error = 1`, the code clamps
`factor·dt_opt = 0.9·(dt·error^(−1/order)) = 1.8` (the clamp argument contains
an extra factor `dt`, so the update scales quadratically in `dt`) and returns
`2·1.8 = 3.6`, while the claim — and Hairer eq. (4.13), which the code's own
docstring cites as "the detailed steps" — gives `dt·clamp(0.9·1) = 2`. -/
theorem C2_update_tstep_double_dt :
    update_tstep 5 0.9 0.2 5 2 1 = 3.6 ∧
    update_tstep_claimed 5 0.9 0.2 5 2 1 = 2 ∧ (3.6 : ℝ) ≠ 2 := by
  refine ⟨?_, ?_, by norm_num⟩
  · simp only [update_tstep]
    rw [if_neg (by norm_num : ¬(1:ℝ) = 0)]
    simp only [Real.one_rpow, mul_one]
    rw [if_pos (by norm_num : (1:ℝ) ≤ 1)]
    rw [show max (1:ℝ) (0.9 * 2) = 1.8 by rw [max_eq_right] <;> norm_num]
    rw [show min (5:ℝ) 1.8 = 1.8 by rw [min_eq_right] <;> norm_num]
    norm_num
  · simp only [update_tstep_claimed]
    rw [if_neg (by norm_num : ¬(1:ℝ) = 0)]
    simp only [Real.one_rpow, mul_one]
    rw [if_pos (by norm_num : (1:ℝ) ≤ 1)]
    rw [show max (1:ℝ) (0.9 : ℝ) = 1 by rw [max_eq_left] <;> norm_num]
    rw [show min (5:ℝ) 1 = 1 by rw [min_eq_right] <;> norm_num]
    norm_num

/-- `AdaptiveIntegrator.init_tstep`
(`torchqdynamics/solvers/integrators/adaptive_integrator.py`, lines 61-84),
for a scalar state: `f` is `self.f`, `atol`/`rtol`/`order` the corresponding
attributes. -/
noncomputable def init_tstep (f : ℝ → ℝ → ℝ) (f0 y0 t0 : ℝ) (atol rtol : ℝ)
    (order : ℕ) : ℝ :=
  let sc := atol + |y0| * rtol
  let d0 := hairer_norm_max (y0 / sc)
  let d1 := hairer_norm_max (f0 / sc)
  let h0 := if d0 < 1e-5 ∨ d1 < 1e-5 then 1e-6 else 0.01 * d0 / d1
  let y1 := y0 + h0 * f0
  let f1 := f (t0 + h0) y1
  let d2 := hairer_norm_max ((f1 - f0) / sc) / h0
  let h1 := if d1 ≤ 1e-15 ∧ d2 ≤ 1e-15 then max 1e-6 (h0 * 1e-3)
            else (0.01 / max d1 d2) ^ ((1:ℝ) / ((order + 1 : ℕ) : ℝ))
  min (100 * h0) h1

/-- `init_tstep` as claim C3 states it: `h0 = 1e-6` ONLY when BOTH `d0` and
`d1` are negligible (below the code's threshold `1e-5`), `h0 = 0.01·d0/d1`
otherwise; the rest as in the code. -/
noncomputable def init_tstep_claimed (f : ℝ → ℝ → ℝ) (f0 y0 t0 : ℝ) (atol rtol : ℝ)
    (order : ℕ) : ℝ :=
  let sc := atol + |y0| * rtol
  let d0 := |y0 / sc|
  let d1 := |f0 / sc|
  let h0 := if d0 < 1e-5 ∧ d1 < 1e-5 then 1e-6 else 0.01 * d0 / d1
  let f1 := f (t0 + h0) (y0 + h0 * f0)
  let d2 := |(f1 - f0) / sc| / h0
  let h1 := if d1 ≤ 1e-15 ∧ d2 ≤ 1e-15 then max 1e-6 (h0 * 1e-3)
            else (0.01 / max d1 d2) ^ ((1:ℝ) / ((order + 1 : ℕ) : ℝ))
  min (100 * h0) h1

/-- Claim C3 amended: `h0 = 1e-6` when `d0 < 1e-5` OR `d1 < 1e-5` (either
scale negligible), and `h0 = 0.01·d0/d1` otherwise; one explicit Euler trial
`y1 = y0 + h0·f0`, `d2 = |(f1−f0)/sc|/h0`; `h1 = (0.01/max(d1,d2))^(1/(order+1))`
unless `d1 ≤ 1e-15` and `d2 ≤ 1e-15`, in which case the fallback is
`max(1e-6, 1e-3·h0)`; the result is `min(100·h0, h1)`. -/
noncomputable def init_tstep_amended (f : ℝ → ℝ → ℝ) (f0 y0 t0 : ℝ) (atol rtol : ℝ)
    (order : ℕ) : ℝ :=
  let sc := atol + |y0| * rtol
  let d0 := |y0 / sc|
  let d1 := |f0 / sc|
  let h0 := if d0 < 1e-5 ∨ d1 < 1e-5 then 1e-6 else 0.01 * d0 / d1
  let f1 := f (t0 + h0) (y0 + h0 * f0)
  let d2 := |(f1 - f0) / sc| / h0
  let h1 := if d1 ≤ 1e-15 ∧ d2 ≤ 1e-15 then max 1e-6 (h0 * 1e-3)
            else (0.01 / max d1 d2) ^ ((1:ℝ) / ((order + 1 : ℕ) : ℝ))
  min (100 * h0) h1

/-- C3 (amended): `init_tstep` computes exactly the amended claim's
description, for every right-hand side, state, time, tolerances and order. -/
theorem C3_init_tstep_eq_amended (f : ℝ → ℝ → ℝ) (f0 y0 t0 : ℝ) (atol rtol : ℝ)
    (order : ℕ) :
    init_tstep f f0 y0 t0 atol rtol order =
      init_tstep_amended f f0 y0 t0 atol rtol order := rfl

theorem rpow_ten_thousand_half : (10000:ℝ) ^ ((1:ℝ)/2) = 100 := by
  rw [show (10000:ℝ) = (100:ℝ) ^ (2:ℕ) by norm_num, ← Real.rpow_natCast (100:ℝ) 2,
    ← Real.rpow_mul (by norm_num : (0:ℝ) ≤ 100)]
  norm_num

/-- C3 counterexample: with `f ≡ 1e-6`, `f0 = 1e-6`, `y0 = 1`, `t0 = 0`,
`atol = 1`, `rtol = 0`, `order = 1` the scales are `d0 = 1` (not negligible)
and `d1 = 1e-6 < 1e-5`: the code takes `h0 = 1e-6` (its condition is
`d0 < 1e-5 OR d1 < 1e-5`) and returns `1e-4`, while the claim's rule
("`h0 = 1e-6` only when both `d0` and `d1` are negligible") gives
`h0 = 0.01·d0/d1 = 10⁴` and returns `100`. -/
theorem C3_init_tstep_counterexample :
    init_tstep (fun _ _ => 1e-6) 1e-6 1 0 1 0 1 = 1e-4 ∧
    init_tstep_claimed (fun _ _ => 1e-6) 1e-6 1 0 1 0 1 = 100 ∧
    init_tstep (fun _ _ => 1e-6) 1e-6 1 0 1 0 1 ≠
      init_tstep_claimed (fun _ _ => 1e-6) 1e-6 1 0 1 0 1 := by
  have h1 : init_tstep (fun _ _ => 1e-6) 1e-6 1 0 1 0 1 = 1e-4 := by
    simp only [init_tstep, hairer_norm_max]
    norm_num [abs_of_nonneg, rpow_ten_thousand_half]
  have h2 : init_tstep_claimed (fun _ _ => 1e-6) 1e-6 1 0 1 0 1 = 100 := by
    simp only [init_tstep_claimed]
    norm_num [abs_of_nonneg, rpow_ten_thousand_half]
  refine ⟨h1, h2, ?_⟩
  rw [h1, h2]
  norm_num

/-! ## C7, C9: the forward driver's result buffers and save logic
(`dynamiqs/solvers/solver.py`, `dynamiqs/_utils.py`) -/

/-- `bexpect` (`dynamiqs/_utils.py`, lines 47-51), density-matrix branch:
`jnp.einsum('...ij,ji->...', O, x) = tr(O·x)`. -/
def bexpect_dm {n : ℕ} (O x : Mat n) : QC := Matrix.trace (O * x)

/-- `bexpect` (`dynamiqs/_utils.py`, lines 47-51), ket branch (`isket x`):
`jnp.einsum('ij,...jk,kl->...', dag(x), O, x) = ⟨x|O|x⟩`. -/
def bexpect_ket {n : ℕ} (O : Mat n) (x : Matrix (Fin n) (Fin 1) QC) : QC :=
  (xᴴ * O * x) 0 0

/-- The allocation of `y_save` in `Solver.__init__` (`dynamiqs/solvers/solver.py`,
lines 50-56): a zero-filled buffer with one slot per save time when
`save_states`, and `None` otherwise.  (`St` is the state slot type; the leading
batch dimensions are omitted.) -/
def solver_init_y_save (St : Type) [Zero St] (save_states : Bool)
    (num_tsave : ℕ) : Option (List St) :=
  if save_states then some (List.replicate num_tsave 0) else none

/-- The allocation of `exp_save` in `Solver.__init__` (`dynamiqs/solvers/solver.py`,
lines 58-68): a zero buffer of shape `(len(exp_ops), len(t_save))` when there
is at least one expectation operator, and `None` otherwise. -/
def solver_init_exp_save (num_exp_ops num_tsave : ℕ) : Option (List (List QC)) :=
  if 0 < num_exp_ops then
    some (List.replicate num_exp_ops (List.replicate num_tsave 0))
  else none

/-- C9 (implicit): `Solver.__init__` sets `exp_save` to `None` exactly when the
expectation-operator list is empty (never a zero-width buffer), and `y_save` to
`None` exactly when `save_states` is false; `exp_save` is an allocated buffer
iff `len(exp_ops) > 0`. -/
theorem C9_solver_buffer_allocation (St : Type) [Zero St] (save_states : Bool)
    (num_exp num_tsave : ℕ) :
    ((solver_init_exp_save num_exp num_tsave).isSome ↔ 0 < num_exp) ∧
    (solver_init_exp_save num_exp num_tsave = none ↔ num_exp = 0) ∧
    ((solver_init_y_save St save_states num_tsave).isSome ↔ save_states = true) ∧
    (solver_init_y_save St save_states num_tsave = none ↔ save_states = false) ∧
    (0 < num_exp → solver_init_exp_save num_exp num_tsave
        = some (List.replicate num_exp (List.replicate num_tsave 0))) ∧
    (save_states = true → solver_init_y_save St save_states num_tsave
        = some (List.replicate num_tsave 0)) := by
  refine ⟨?_, ?_, ?_, ?_, ?_, ?_⟩ <;>
    cases save_states <;>
      simp [solver_init_exp_save, solver_init_y_save] <;> omega

/-- The run-time contents of the `y_save` slot of the `Result`: either the
preallocated buffer, `None`, or (when `save_states=False`) the single final
state assigned by `Solver._save_y`. -/
inductive YSaveBuf (St : Type) where
  | buf : List St → YSaveBuf St
  | noneBuf : YSaveBuf St
  | final : St → YSaveBuf St
deriving DecidableEq

/-- The save-relevant mutable attributes of `Solver` and its `Result`.  The
`expSave` grid is indexed time-major here (one row per save time, one entry
per operator); the source's tensor has shape `(len(exp_ops), len(t_save))`,
the transposed view with identical content. -/
structure SaveSt (St : Type) where
  ySave : YSaveBuf St
  expSave : Option (List (List QC))
  tStopCounter : ℕ
  tSaveCounter : ℕ
deriving DecidableEq

/-- `Solver._init_time_logic`: `t_stop = t_save` and
`t_save_mask = isin(t_stop, t_save)`. -/
def save_mask (t_stop t_save : List ℚ) : List Bool :=
  t_stop.map (fun t => decide (t ∈ t_save))

/-- `Solver._save_y` (`dynamiqs/solvers/solver.py`, lines 105-110). -/
def save_y {St : Type} (save_states : Bool) (num_tsave : ℕ) (y : St)
    (st : SaveSt St) : SaveSt St :=
  if save_states then
    { st with ySave := match st.ySave with
        | .buf l => .buf (l.set st.tSaveCounter y)
        | o => o }
  else if st.tSaveCounter = num_tsave - 1 then { st with ySave := .final y }
  else st

/-- `Solver._save_exp_ops` (`dynamiqs/solvers/solver.py`, lines 112-114):
writes `bexpect(exp_ops, y)` into the `t_save_counter` slice when there is at
least one operator. -/
def save_exp {St α : Type} (ops : List α) (expFun : α → St → QC) (y : St)
    (st : SaveSt St) : SaveSt St :=
  if 0 < ops.length then
    { st with expSave := match st.expSave with
        | some g => some (g.set st.tSaveCounter (ops.map (fun O => expFun O y)))
        | none => none }
  else st

/-- `Solver.save` / `Solver._save` (`dynamiqs/solvers/solver.py`, lines 95-103):
on a masked stop, write the state snapshot and the expectation values and
advance the save counter; always advance the stop counter. -/
def save_one {St α : Type} (save_states : Bool) (num_tsave : ℕ) (mask : List Bool)
    (ops : List α) (expFun : α → St → QC) (y : St) (st : SaveSt St) : SaveSt St :=
  let st1 :=
    if mask.getD st.tStopCounter false then
      let stb := save_exp ops expFun y (save_y save_states num_tsave y st)
      { stb with tSaveCounter := stb.tSaveCounter + 1 }
    else st
  { st1 with tStopCounter := st1.tStopCounter + 1 }

/-- The forward driver's saving behaviour: `FixedSolver.run_autograd` calls
`self.save(y)` once per stop time with the state reached there; `ys` is that
list of states, and the buffers are initialized as in `Solver.__init__` with
`t_stop = t_save` from `_init_time_logic` (`z` is the zero state filling the
buffer). -/
def run_forward_saves {St α : Type} (z : St) (save_states : Bool) (ops : List α)
    (expFun : α → St → QC) (t_save : List ℚ) (ys : List St) : SaveSt St :=
  let K := t_save.length
  let init : SaveSt St :=
    { ySave := if save_states then .buf (List.replicate K z) else .noneBuf
      expSave := if 0 < ops.length then
          some (List.replicate K (List.replicate ops.length 0))
        else none
      tStopCounter := 0
      tSaveCounter := 0 }
  ys.foldl (fun st y => save_one save_states K (save_mask t_save t_save) ops expFun y st) init

theorem save_mask_self (t_save : List ℚ) :
    save_mask t_save t_save = List.replicate t_save.length true := by
  unfold save_mask
  induction t_save with
  | nil => rfl
  | cons t ts ih =>
    simp only [List.map_cons, List.length_cons, List.replicate_succ]
    congr 1
    · simp
    · calc ts.map (fun t' => decide (t' ∈ t :: ts))
          = ts.map (fun t' => decide (t' ∈ ts)) := by
            apply List.map_congr_left
            intro x hx
            simp [hx]
      _ = List.replicate ts.length true := ih

/-- Sequential in-place writes `b[c] := ys[0]`, `b[c+1] := ys[1]`, … -/
def listWrite {β : Type} (b : List β) (c : ℕ) (ys : List β) : List β :=
  match ys with
  | [] => b
  | y :: ys => listWrite (b.set c y) (c + 1) ys

theorem listWrite_cons_succ {β : Type} (a : β) (b : List β) (c : ℕ) (ys : List β) :
    listWrite (a :: b) (c + 1) ys = a :: listWrite b c ys := by
  induction ys generalizing a b c with
  | nil => rfl
  | cons y ys ih =>
    show listWrite ((a :: b).set (c + 1) y) (c + 2) ys = a :: listWrite (b.set c y) (c + 1) ys
    rw [List.set_cons_succ, ih]

theorem listWrite_id {β : Type} : ∀ (ys b : List β), b.length = ys.length →
    listWrite b 0 ys = ys := by
  intro ys
  induction ys with
  | nil =>
    intro b hb
    cases b with
    | nil => rfl
    | cons z b => simp at hb
  | cons y ys ih =>
    intro b hb
    cases b with
    | nil => simp at hb
    | cons z b =>
      show listWrite ((z :: b).set 0 y) 1 ys = y :: ys
      rw [List.set_cons_zero, show (1 : ℕ) = 0 + 1 from rfl, listWrite_cons_succ,
        ih b (by simpa using hb)]

theorem getD_replicate_true (K c : ℕ) (h : c < K) :
    (List.replicate K true).getD c false = true := by
  induction K generalizing c with
  | zero => omega
  | succ K ih =>
    cases c with
    | zero => rfl
    | succ c => exact ih c (by omega)

/-- Characterization of the save loop with `save_states = True`: the state
snapshots are written at the running save index, the expectation grid likewise,
and both counters advance once per stop. -/
theorem save_fold_true {St α : Type} (K : ℕ) (ops : List α) (expFun : α → St → QC) :
    ∀ (ys : List St) (c : ℕ) (b : List St) (e : Option (List (List QC))),
    c + ys.length ≤ K →
    ys.foldl (fun st y => save_one true K (List.replicate K true) ops expFun y st)
        { ySave := .buf b, expSave := e, tStopCounter := c, tSaveCounter := c }
      = { ySave := .buf (listWrite b c ys),
          expSave := if 0 < ops.length then
              e.map (fun g => listWrite g c (ys.map (fun y => ops.map (fun O => expFun O y))))
            else e,
          tStopCounter := c + ys.length, tSaveCounter := c + ys.length } := by
  intro ys
  induction ys with
  | nil =>
    intro c b e _
    simp only [List.foldl_nil, List.map_nil, listWrite, List.length_nil, Nat.add_zero]
    by_cases hops : 0 < ops.length <;> simp [hops]
  | cons y ys ih =>
    intro c b e hc
    have hcK : c < K := by simp at hc; omega
    have hstep : save_one true K (List.replicate K true) ops expFun y
        { ySave := .buf b, expSave := e, tStopCounter := c, tSaveCounter := c }
        = { ySave := .buf (b.set c y),
            expSave := if 0 < ops.length then
                e.map (fun g => g.set c (ops.map (fun O => expFun O y)))
              else e,
            tStopCounter := c + 1, tSaveCounter := c + 1 } := by
      simp only [save_one, save_y, save_exp, getD_replicate_true K c hcK, if_true]
      by_cases hops : 0 < ops.length
      · cases e <;> simp [hops]
      · simp [hops]
    rw [List.foldl_cons, hstep, ih (c + 1) (b.set c y) _ (by simp at hc ⊢; omega)]
    have hy : listWrite (b.set c y) (c + 1) ys = listWrite b c (y :: ys) := rfl
    by_cases hops : 0 < ops.length
    · simp only [hops, if_true, hy]
      congr 1
      · cases e with
        | none => rfl
        | some g => rfl
      · simp [List.length_cons]; omega
      · simp [List.length_cons]; omega
    · simp only [hops, if_false, hy]
      congr 1 <;> simp [List.length_cons] <;> omega

/-- Characterization of the save loop with `save_states = False`: `y_save` is
only assigned when the save counter reaches the final save index, and it then
holds exactly the last state; the expectation grid is written as before. -/
theorem save_fold_false {St α : Type} (K : ℕ) (ops : List α) (expFun : α → St → QC) :
    ∀ (ys : List St) (c : ℕ) (v : YSaveBuf St) (e : Option (List (List QC))),
    c + ys.length ≤ K →
    ys.foldl (fun st y => save_one false K (List.replicate K true) ops expFun y st)
        { ySave := v, expSave := e, tStopCounter := c, tSaveCounter := c }
      = { ySave := if c + ys.length = K then
              (match ys.getLast? with
               | some y => YSaveBuf.final y
               | none => v)
            else v,
          expSave := if 0 < ops.length then
              e.map (fun g => listWrite g c (ys.map (fun y => ops.map (fun O => expFun O y))))
            else e,
          tStopCounter := c + ys.length, tSaveCounter := c + ys.length } := by
  intro ys
  induction ys with
  | nil =>
    intro c v e hc
    simp only [List.foldl_nil, List.map_nil, listWrite, List.length_nil, Nat.add_zero,
      List.getLast?_nil]
    by_cases hK : c = K <;> by_cases hops : 0 < ops.length <;> simp [hK, hops]
  | cons y ys ih =>
    intro c v e hc
    have hcK : c < K := by simp at hc; omega
    have hstep : save_one false K (List.replicate K true) ops expFun y
        { ySave := v, expSave := e, tStopCounter := c, tSaveCounter := c }
        = { ySave := if c = K - 1 then .final y else v,
            expSave := if 0 < ops.length then
                e.map (fun g => g.set c (ops.map (fun O => expFun O y)))
              else e,
            tStopCounter := c + 1, tSaveCounter := c + 1 } := by
      simp only [save_one, save_y, save_exp, getD_replicate_true K c hcK, if_true,
        Bool.false_eq_true, if_false]
      by_cases hfin : c = K - 1
      · by_cases hops : 0 < ops.length
        · cases e <;> simp [hfin, hops]
        · simp [hfin, hops]
      · by_cases hops : 0 < ops.length
        · cases e <;> simp [hfin, hops]
        · simp [hfin, hops]
    rw [List.foldl_cons, hstep]
    rw [ih (c + 1) _ _ (by simp at hc ⊢; omega)]
    have hexp : (if 0 < ops.length then
          (if 0 < ops.length then
              e.map (fun g => g.set c (ops.map (fun O => expFun O y)))
            else e).map
            (fun g => listWrite g (c + 1) (ys.map (fun y => ops.map (fun O => expFun O y))))
        else (if 0 < ops.length then
              e.map (fun g => g.set c (ops.map (fun O => expFun O y)))
            else e))
        = if 0 < ops.length then
            e.map (fun g => listWrite g c ((y :: ys).map (fun y => ops.map (fun O => expFun O y))))
          else e := by
      by_cases hops : 0 < ops.length
      · simp only [hops, if_true, Option.map_map]
        cases e <;> rfl
      · simp [hops]
    rw [hexp]
    have hlen : c + (y :: ys).length = (c + 1) + ys.length := by simp; omega
    by_cases hfin : c = K - 1
    · have hlen2 : c + 1 + ys.length ≤ K := by
        simp only [List.length_cons] at hc
        omega
      have hys : ys = [] := by
        have := List.length_eq_zero.mp (show ys.length = 0 by omega)
        exact this
      subst hys
      have hK : c + 1 = K := by omega
      simp [hK, hfin]
      rw [if_pos (show K - 1 + 1 = K by omega)]
    · congr 1
      · by_cases hK : c + 1 + ys.length = K
        · have hys : ys ≠ [] := by
            intro h
            subst h
            simp at hK
            omega
          have h1 : c + (y :: ys).length = K := by simp at hK ⊢; omega
          simp only [hK, if_true, h1]
          cases ys with
          | nil => exact absurd rfl hys
          | cons a l =>
            simp only [List.getLast?_cons_cons]
            cases hgl : (a :: l).getLast? with
            | none =>
              have hsome : (a :: l).getLast?.isSome := by
                rw [List.getLast?_isSome]
                simp
              rw [hgl] at hsome
              simp at hsome
            | some w => rfl
        · have h1 : ¬(c + (y :: ys).length = K) := by simp at hK ⊢; omega
          simp only [hK, if_false, hfin]
          rw [if_neg (by simp at h1 ⊢; omega)]
      · simp; omega
      · simp; omega

/-- C7: at each stop time that is a requested save time, with `save_states`
the state snapshot is written into `result.y_save` at the current save index
(so the final buffer is exactly the list of states at the save times); with
`save_states=False`, `result.y_save` ends up holding exactly the state at the
final save time and no earlier snapshot; and in both cases, when expectation
operators are supplied, the expectation `tr(O·ρ)` (or `⟨ψ|O|ψ⟩` for kets) of
every observable is written into `result.exp_save` at every save time. -/
theorem C7_forward_save {n : ℕ} (t_save : List ℚ) (ops : List (Mat n))
    (ys : List (Mat n)) (kets : List (Matrix (Fin n) (Fin 1) QC))
    (hys : ys.length = t_save.length) (hkets : kets.length = t_save.length) :
    (run_forward_saves 0 true ops bexpect_dm t_save ys).ySave = YSaveBuf.buf ys ∧
    (ys ≠ [] → (run_forward_saves 0 false ops bexpect_dm t_save ys).ySave
        = YSaveBuf.final (ys.getLastD 0)) ∧
    (0 < ops.length → ∀ ss : Bool,
      (run_forward_saves 0 ss ops bexpect_dm t_save ys).expSave
        = some (ys.map (fun y => ops.map (fun O => bexpect_dm O y)))) ∧
    (0 < ops.length →
      (run_forward_saves 0 true ops bexpect_ket t_save kets).expSave
        = some (kets.map (fun k => ops.map (fun O => bexpect_ket O k)))) := by
  have hmask := save_mask_self t_save
  refine ⟨?_, ?_, ?_, ?_⟩
  · simp only [run_forward_saves, hmask, if_true]
    rw [save_fold_true t_save.length ops bexpect_dm ys 0 _ _ (by omega)]
    simp only
    rw [listWrite_id ys _ (by simp [hys])]
  · intro hne
    simp only [run_forward_saves, hmask, Bool.false_eq_true, if_false]
    rw [save_fold_false t_save.length ops bexpect_dm ys 0 _ _ (by omega)]
    simp only [Nat.zero_add, hys, if_true]
    cases hgl : ys.getLast? with
    | none =>
      have hsome : ys.getLast?.isSome := List.getLast?_isSome.mpr hne
      rw [hgl] at hsome
      simp at hsome
    | some w =>
      have : ys.getLastD 0 = w := by
        rw [List.getLastD_eq_getLast?, hgl]
        rfl
      rw [this]
  · intro hops ss
    cases ss with
    | true =>
      simp only [run_forward_saves, hmask, if_true, hops]
      rw [save_fold_true t_save.length ops bexpect_dm ys 0 _ _ (by omega)]
      simp only [hops, if_true, Option.map_some']
      rw [listWrite_id _ _ (by simp [hys])]
    | false =>
      simp only [run_forward_saves, hmask, Bool.false_eq_true, if_false, hops, if_true]
      rw [save_fold_false t_save.length ops bexpect_dm ys 0 _ _ (by omega)]
      simp only [hops, if_true, Option.map_some']
      rw [listWrite_id _ _ (by simp [hys])]
  · intro hops
    simp only [run_forward_saves, hmask, if_true, hops]
    rw [save_fold_true t_save.length ops bexpect_ket kets 0 _ _ (by omega)]
    simp only [hops, if_true, Option.map_some']
    rw [listWrite_id _ _ (by simp [hkets])]

/-- Witness for C7: two save times, one observable, concrete 1×1 states. -/
theorem C7_forward_save_witness :
    (([m1 ⟨2, 0⟩, m1 ⟨3, 0⟩] : List (Mat 1)).length = ([0, 1] : List ℚ).length) ∧
    (([m1 ⟨5, 0⟩, m1 ⟨6, 0⟩] : List (Mat 1)).length = ([0, 1] : List ℚ).length) ∧
    ((run_forward_saves 0 true [m1 1] bexpect_dm [0, 1] [m1 ⟨2, 0⟩, m1 ⟨3, 0⟩]).ySave
        = YSaveBuf.buf [m1 ⟨2, 0⟩, m1 ⟨3, 0⟩] ∧
      (([m1 ⟨2, 0⟩, m1 ⟨3, 0⟩] : List (Mat 1)) ≠ [] →
        (run_forward_saves 0 false [m1 1] bexpect_dm [0, 1] [m1 ⟨2, 0⟩, m1 ⟨3, 0⟩]).ySave
          = YSaveBuf.final (([m1 ⟨2, 0⟩, m1 ⟨3, 0⟩] : List (Mat 1)).getLastD 0)) ∧
      (0 < ([m1 1] : List (Mat 1)).length → ∀ ss : Bool,
        (run_forward_saves 0 ss [m1 1] bexpect_dm [0, 1] [m1 ⟨2, 0⟩, m1 ⟨3, 0⟩]).expSave
          = some ([m1 ⟨2, 0⟩, m1 ⟨3, 0⟩].map
              (fun y => [m1 1].map (fun O => bexpect_dm O y)))) ∧
      (0 < ([m1 1] : List (Mat 1)).length →
        (run_forward_saves 0 true [m1 1] bexpect_ket [0, 1] [m1 ⟨5, 0⟩, m1 ⟨6, 0⟩]).expSave
          = some ([m1 ⟨5, 0⟩, m1 ⟨6, 0⟩].map
              (fun k => [m1 1].map (fun O => bexpect_ket O k))))) :=
  ⟨rfl, rfl, C7_forward_save [0, 1] [m1 1] [m1 ⟨2, 0⟩, m1 ⟨3, 0⟩]
    [m1 ⟨5, 0⟩, m1 ⟨6, 0⟩] rfl rfl⟩

/-! ## C10: sparse diagonal-format operator addition
(`dynamiqs/qarrays/sparse_qarray.py`; `dynamiqs/sparse_qarray.py` is
identical on the lines involved) -/

/-- `SparseQArray`: a sparse operator stored as a tuple of diagonal offsets
with one stored diagonal per offset (each diagonal indexed by column, as in
`_mul_dense`), and the subsystem dimensions `dims`. -/
structure SparseQArray where
  offsets : List ℤ
  diags : List (List QC)
  dims : List ℕ
deriving DecidableEq

/-- The result of `SparseQArray.__add__`: either a sparse array or a dense
one (represented by its entries). -/
inductive QAddResult where
  | sparse : SparseQArray → QAddResult
  | dense : (ℕ → ℕ → QC) → QAddResult

/-- `to_dense` (`dynamiqs/sparse_qarray.py`, lines 139-154): `out` starts as
`jnp.zeros((N, N))` with `N = x.shape[-1]` (the dense dimension, passed here
as a parameter), and each `(offset, diag)` pair of `zip(x.offsets, x.diags)`
adds `jnp.diag(diag[start:end], k=offset)` with `start = max(0, offset)`,
`end = min(N, N + offset)`. For a stored diagonal of row length `N`, that
summand's entry `(i, j)` is `diag[j]` when `j − i = offset` and `i, j < N`
(for `offset ≥ 0` the slice `diag[offset:N]` sits at `(i, i + offset)`,
reading `diag[offset + i] = diag[j]`; for `offset < 0` the slice
`diag[0 : N + offset]` sits at `(j − offset, j)`, reading `diag[j]`), and `0`
elsewhere. -/
def to_dense (N : ℕ) (x : SparseQArray) : ℕ → ℕ → QC :=
  fun i j => ((x.offsets.zip x.diags).map
    (fun od => if i < N ∧ j < N ∧ (j : ℤ) - (i : ℤ) = od.1
      then od.2.getD j 0 else 0)).sum

/-- The scalar branch of `SparseQArray.__add__`
(`dynamiqs/qarrays/sparse_qarray.py`, lines 23-30): adding the exact scalar
`0` returns `self` unchanged; any other scalar densifies via
`self.to_dense() + other`. -/
def sq_add_scalar (N : ℕ) (s : SparseQArray) (c : QC) : QAddResult :=
  if c = 0 then .sparse s
  else .dense (fun i j => to_dense N s i j + c)

/-- The dense-array branch of `SparseQArray.__add__` (lines 31-36):
`self.to_dense() + other`. -/
def sq_add_dense (N : ℕ) (s : SparseQArray) (other : ℕ → ℕ → QC) : QAddResult :=
  .dense (fun i j => to_dense N s i j + other i j)

/-- The dictionary update in `_add_sparse`: `dict[o] += d` if `o` is already a
key (in place, position preserved), else insert at the end. -/
def upsertAdd (m : List (ℤ × List QC)) (o : ℤ) (d : List QC) : List (ℤ × List QC) :=
  match m with
  | [] => [(o, d)]
  | p :: m' => if p.1 = o then (p.1, List.zipWith (· + ·) p.2 d) :: m'
               else p :: upsertAdd m' o d

/-- `SparseQArray._add_sparse` (lines 43-54): build the offset-to-diagonal
dictionary from `self`, fold `other`'s diagonals into it, then emit the sorted
keys and their diagonals. -/
def sq_add_sparse_core (a b : SparseQArray) : SparseQArray :=
  let m := (b.offsets.zip b.diags).foldl (fun m od => upsertAdd m od.1 od.2)
    (a.offsets.zip a.diags)
  let out_offsets := ((m.map Prod.fst).toFinset).sort (· ≤ ·)
  let out_diags := out_offsets.map (fun o => (m.lookup o).getD [])
  ⟨out_offsets, out_diags, a.dims⟩

/-- `_check_compatible_dims` (lines 138-142). -/
def check_compatible_dims (dims1 dims2 : List ℕ) : Except String Unit :=
  if dims1 ≠ dims2 then
    .error "QArrays have incompatible dimensions."
  else .ok ()

/-- The sparse branch of `SparseQArray.__add__` (lines 37-39):
check dims, then `_add_sparse`. -/
def sq_add_sparse (a b : SparseQArray) : Except String SparseQArray :=
  match check_compatible_dims a.dims b.dims with
  | .error e => .error e
  | .ok _ => .ok (sq_add_sparse_core a b)

/-- How the two looked-up diagonals combine in `_add_sparse`. -/
def combineDiag : Option (List QC) → Option (List QC) → Option (List QC)
  | some v, some d => some (List.zipWith (· + ·) v d)
  | some v, none => some v
  | none, some d => some d
  | none, none => none

theorem lookup_cons_if (k : ℤ) (v : List QC) (es : List (ℤ × List QC)) (o : ℤ) :
    ((k, v) :: es).lookup o = if o = k then some v else es.lookup o := by
  rw [List.lookup_cons]
  by_cases h : o = k
  · rw [if_pos h, show (o == k) = true by simpa using h]
  · rw [if_neg h, show (o == k) = false by simpa using h]

theorem lookup_upsertAdd (m : List (ℤ × List QC)) (o' : ℤ) (d : List QC) (o : ℤ) :
    (upsertAdd m o' d).lookup o =
      if o = o' then
        (match m.lookup o' with
         | some v => some (List.zipWith (· + ·) v d)
         | none => some d)
      else m.lookup o := by
  induction m with
  | nil =>
    have hu : upsertAdd [] o' d = [(o', d)] := rfl
    rw [hu, lookup_cons_if]
    by_cases h : o = o' <;> simp [h]
  | cons p m ih =>
    obtain ⟨k, v⟩ := p
    by_cases hp : k = o'
    · subst hp
      have hu : upsertAdd ((k, v) :: m) k d = (k, List.zipWith (· + ·) v d) :: m := by
        simp [upsertAdd]
      rw [hu]
      by_cases h : o = k <;> simp [lookup_cons_if, h]
    · have hu : upsertAdd ((k, v) :: m) o' d = (k, v) :: upsertAdd m o' d := by
        simp [upsertAdd, hp]
      rw [hu, lookup_cons_if, ih]
      have hk : ¬(o' = k) := fun hc => hp hc.symm
      by_cases h : o = k
      · have ho' : ¬(o = o') := fun hc => hp (h.symm.trans hc)
        simp [lookup_cons_if, h, ho', hk, hp]
      · simp [lookup_cons_if, h, hk]

theorem keys_upsertAdd (m : List (ℤ × List QC)) (o : ℤ) (d : List QC) :
    ((upsertAdd m o d).map Prod.fst).toFinset = ((m.map Prod.fst).toFinset) ∪ {o} := by
  induction m with
  | nil => simp [upsertAdd]
  | cons p m ih =>
    obtain ⟨k, v⟩ := p
    by_cases hp : k = o
    · subst hp
      have hu : upsertAdd ((k, v) :: m) k d = (k, List.zipWith (· + ·) v d) :: m := by
        simp [upsertAdd]
      rw [hu]
      simp [Finset.insert_eq, Finset.union_assoc, Finset.union_comm]
    · have hu : upsertAdd ((k, v) :: m) o d = (k, v) :: upsertAdd m o d := by
        simp [upsertAdd, hp]
      rw [hu]
      simp only [List.map_cons, List.toFinset_cons, ih, Finset.insert_union]

theorem lookup_none_of_not_mem_keys {m : List (ℤ × List QC)} {o : ℤ}
    (h : o ∉ m.map Prod.fst) : m.lookup o = none := by
  induction m with
  | nil => rfl
  | cons p m ih =>
    obtain ⟨k, v⟩ := p
    simp only [List.map_cons, List.mem_cons] at h
    push_neg at h
    rw [lookup_cons_if, if_neg h.1]
    exact ih h.2

theorem lookup_foldl_upsert (bs : List (ℤ × List QC)) :
    ∀ (m : List (ℤ × List QC)) (o : ℤ), (bs.map Prod.fst).Nodup →
    ((bs.foldl (fun m od => upsertAdd m od.1 od.2) m).lookup o)
      = combineDiag (m.lookup o) (bs.lookup o) := by
  induction bs with
  | nil =>
    intro m o _
    simp only [List.foldl_nil, List.lookup_nil]
    cases m.lookup o <;> rfl
  | cons p bs ih =>
    intro m o hnd
    obtain ⟨k, v⟩ := p
    simp only [List.map_cons, List.nodup_cons] at hnd
    rw [List.foldl_cons, ih _ o hnd.2, lookup_upsertAdd, lookup_cons_if]
    by_cases h : o = k
    · subst h
      have hbs : bs.lookup o = none :=
        lookup_none_of_not_mem_keys (by simpa using hnd.1)
      rw [if_pos rfl, if_pos rfl, hbs]
      cases hm : m.lookup o <;> simp [hm, combineDiag]
    · rw [if_neg h, if_neg h]

theorem keys_foldl_upsert (bs : List (ℤ × List QC)) :
    ∀ (m : List (ℤ × List QC)),
    (((bs.foldl (fun m od => upsertAdd m od.1 od.2) m).map Prod.fst).toFinset)
      = ((m.map Prod.fst).toFinset) ∪ ((bs.map Prod.fst).toFinset) := by
  induction bs with
  | nil => intro m; simp
  | cons p bs ih =>
    intro m
    rw [List.foldl_cons, ih, keys_upsertAdd]
    simp only [List.map_cons, List.toFinset_cons, Finset.union_assoc, Finset.insert_eq]

theorem lookup_zip_map (l : List ℤ) (f : ℤ → List QC) (o : ℤ) :
    ((l.zip (l.map f)).lookup o) = if o ∈ l then some (f o) else none := by
  induction l with
  | nil => simp
  | cons k l ih =>
    simp only [List.map_cons, List.zip_cons_cons]
    rw [lookup_cons_if, ih]
    by_cases h : o = k
    · subst h
      simp
    · rw [if_neg h]
      by_cases hm : o ∈ l
      · simp [hm, List.mem_cons]
      · have hnk : o ∉ k :: l := by
          simp only [List.mem_cons]
          push_neg
          exact ⟨h, hm⟩
        simp [hm, hnk]

theorem lookup_zip_sortKeys (m : List (ℤ × List QC)) (o : ℤ) :
    ((((m.map Prod.fst).toFinset.sort (· ≤ ·)).zip
      (((m.map Prod.fst).toFinset.sort (· ≤ ·)).map (fun o => (m.lookup o).getD []))).lookup o)
      = (m.lookup o).map (fun w => w) := by
  rw [lookup_zip_map]
  by_cases hmem : o ∈ (m.map Prod.fst).toFinset.sort (· ≤ ·)
  · rw [if_pos hmem]
    have homem : o ∈ m.map Prod.fst := by
      have h2 := (Finset.mem_sort (α := ℤ) (· ≤ ·)).mp hmem
      simpa using h2
    have hsome : (m.lookup o).isSome := by
      rw [List.lookup_isSome_iff]
      obtain ⟨p, hp, hpo⟩ := List.mem_map.mp homem
      exact ⟨p, hp, by simp [hpo]⟩
    obtain ⟨w, hw⟩ := Option.isSome_iff_exists.mp hsome
    rw [hw]
    rfl
  · rw [if_neg hmem]
    have hno : o ∉ m.map Prod.fst := by
      intro hc
      exact hmem ((Finset.mem_sort (α := ℤ) (· ≤ ·)).mpr (by simpa using hc))
    rw [lookup_none_of_not_mem_keys hno]
    rfl

theorem sq_core_lookup (a b : SparseQArray) (hbnd : b.offsets.Nodup)
    (hlb : b.diags.length = b.offsets.length) (o : ℤ) :
    (((sq_add_sparse_core a b).offsets.zip (sq_add_sparse_core a b).diags).lookup o)
      = combineDiag ((a.offsets.zip a.diags).lookup o)
          ((b.offsets.zip b.diags).lookup o) := by
  have h1 : (((sq_add_sparse_core a b).offsets.zip (sq_add_sparse_core a b).diags).lookup o)
      = (((b.offsets.zip b.diags).foldl (fun m od => upsertAdd m od.1 od.2)
          (a.offsets.zip a.diags)).lookup o).map (fun w => w) :=
    lookup_zip_sortKeys _ o
  rw [h1, lookup_foldl_upsert _ _ o
    (by rw [List.map_fst_zip _ _ (by omega)]; exact hbnd)]
  cases ((a.offsets.zip a.diags).lookup o) <;> cases ((b.offsets.zip b.diags).lookup o) <;>
    simp [combineDiag]

theorem combineDiag_getD (la lb : Option (List QC)) (N j : ℕ) (hj : j < N)
    (hla : ∀ v, la = some v → v.length = N) (hlb : ∀ v, lb = some v → v.length = N) :
    (((combineDiag la lb).getD []).getD j 0)
      = ((la.getD []).getD j 0) + ((lb.getD []).getD j 0) := by
  cases la with
  | none =>
    cases lb with
    | none => simp [combineDiag]
    | some vb => simp [combineDiag]
  | some va =>
    cases lb with
    | none => simp [combineDiag]
    | some vb =>
      have hva := hla va rfl
      have hvb := hlb vb rfl
      simp only [combineDiag, Option.getD_some]
      rw [List.getD_eq_getElem?_getD, List.getD_eq_getElem?_getD,
        List.getD_eq_getElem?_getD, List.getElem?_zipWith,
        List.getElem?_eq_getElem (by omega : j < va.length),
        List.getElem?_eq_getElem (by omega : j < vb.length)]
      rfl

theorem combineDiag_comm (la lb : Option (List QC)) :
    combineDiag la lb = combineDiag lb la := by
  cases la <;> cases lb <;> simp [combineDiag]
  exact List.zipWith_comm_of_comm _ (fun x y => add_comm x y) _ _

theorem sum_if_eq_lookup (m : List (ℤ × List QC)) (o : ℤ) (j : ℕ)
    (hnd : (m.map Prod.fst).Nodup) :
    (m.map (fun od => if o = od.1 then od.2.getD j 0 else 0)).sum
      = ((m.lookup o).getD []).getD j 0 := by
  induction m with
  | nil => simp
  | cons p m ih =>
    obtain ⟨k, v⟩ := p
    simp only [List.map_cons, List.nodup_cons] at hnd
    rw [List.map_cons, List.sum_cons, lookup_cons_if]
    by_cases h : o = k
    · rw [if_pos h, if_pos h]
      have hzero : (m.map (fun od => if o = od.1 then od.2.getD j 0 else 0)).sum
          = 0 := by
        apply List.sum_eq_zero
        intro q hq
        obtain ⟨od, hod, rfl⟩ := List.mem_map.mp hq
        have hmem : od.1 ∈ m.map Prod.fst := List.mem_map.mpr ⟨od, hod, rfl⟩
        rw [if_neg (fun hc =>
          hnd.1 (by rw [show k = od.1 from h.symm.trans hc]; exact hmem))]
      rw [hzero, add_zero, Option.getD_some]
    · rw [if_neg h, if_neg h, zero_add, ih hnd.2]

theorem to_dense_out_of_range (N : ℕ) (x : SparseQArray) (i j : ℕ)
    (h : ¬(i < N ∧ j < N)) : to_dense N x i j = 0 := by
  apply List.sum_eq_zero
  intro q hq
  obtain ⟨od, _, rfl⟩ := List.mem_map.mp hq
  rw [if_neg (fun hc => h ⟨hc.1, hc.2.1⟩)]

theorem to_dense_lookup (N : ℕ) (x : SparseQArray) (hnd : x.offsets.Nodup)
    (hlen : x.diags.length = x.offsets.length) (i j : ℕ) (hi : i < N)
    (hj : j < N) :
    to_dense N x i j
      = (((x.offsets.zip x.diags).lookup ((j : ℤ) - (i : ℤ))).getD []).getD j 0 := by
  have hcond : ∀ od : ℤ × List QC,
      (if i < N ∧ j < N ∧ (j : ℤ) - (i : ℤ) = od.1 then od.2.getD j 0 else 0)
        = (if (j : ℤ) - (i : ℤ) = od.1 then od.2.getD j 0 else 0) := by
    intro od
    by_cases h : (j : ℤ) - (i : ℤ) = od.1
    · rw [if_pos ⟨hi, hj, h⟩, if_pos h]
    · rw [if_neg (fun hc => h hc.2.2), if_neg h]
  simp only [to_dense, hcond]
  exact sum_if_eq_lookup _ _ j
    (by rw [List.map_fst_zip _ _ (by omega)]; exact hnd)

theorem sq_core_offsets_nodup (a b : SparseQArray) :
    (sq_add_sparse_core a b).offsets.Nodup := by
  have h : (sq_add_sparse_core a b).offsets
      = ((((b.offsets.zip b.diags).foldl (fun m od => upsertAdd m od.1 od.2)
          (a.offsets.zip a.diags)).map Prod.fst).toFinset).sort (· ≤ ·) := rfl
  rw [h]
  exact Finset.sort_nodup _ _

theorem sq_core_diags_length (a b : SparseQArray) :
    (sq_add_sparse_core a b).diags.length
      = (sq_add_sparse_core a b).offsets.length := by
  show (List.map _ _).length = _
  rw [List.length_map]
  rfl

/-- C10 (implicit): adding the scalar `0` to a `SparseQArray` returns the very
same sparse array; adding a nonzero scalar or a dense array produces a dense
result; adding two `SparseQArray`s with different `dims` raises `ValueError`;
and with equal `dims` the result is sparse with offsets the sorted union of
the operands' offsets and coinciding diagonals summed, so that as a matrix the
sum is the entrywise sum and sparse-plus-sparse addition is commutative. -/
theorem C10_sparse_add (a b : SparseQArray) (c : QC) (other : ℕ → ℕ → QC) (N : ℕ)
    (hand : a.offsets.Nodup) (hbnd : b.offsets.Nodup)
    (hla : a.diags.length = a.offsets.length) (hlb : b.diags.length = b.offsets.length)
    (hNa : ∀ d ∈ a.diags, d.length = N) (hNb : ∀ d ∈ b.diags, d.length = N) :
    (sq_add_scalar N a 0 = QAddResult.sparse a) ∧
    (c ≠ 0 → sq_add_scalar N a c
        = QAddResult.dense (fun i j => to_dense N a i j + c)) ∧
    (sq_add_dense N a other
        = QAddResult.dense (fun i j => to_dense N a i j + other i j)) ∧
    (a.dims ≠ b.dims →
      sq_add_sparse a b = Except.error "QArrays have incompatible dimensions.") ∧
    (a.dims = b.dims →
      sq_add_sparse a b = Except.ok (sq_add_sparse_core a b) ∧
      (sq_add_sparse_core a b).offsets
        = (a.offsets.toFinset ∪ b.offsets.toFinset).sort (· ≤ ·) ∧
      (∀ i j : ℕ,
        to_dense N (sq_add_sparse_core a b) i j
          = to_dense N a i j + to_dense N b i j) ∧
      (∀ i j : ℕ, to_dense N (sq_add_sparse_core a b) i j
          = to_dense N (sq_add_sparse_core b a) i j)) := by
  refine ⟨by simp [sq_add_scalar], fun hc => by simp [sq_add_scalar, hc], rfl,
    fun hd => by simp [sq_add_sparse, check_compatible_dims, hd], fun hdims => ?_⟩
  refine ⟨by simp [sq_add_sparse, check_compatible_dims, hdims], ?_, ?_, ?_⟩
  · have hoff : (sq_add_sparse_core a b).offsets
        = ((((b.offsets.zip b.diags).foldl (fun m od => upsertAdd m od.1 od.2)
            (a.offsets.zip a.diags)).map Prod.fst).toFinset).sort (· ≤ ·) := rfl
    rw [hoff, keys_foldl_upsert, List.map_fst_zip _ _ (by omega),
      List.map_fst_zip _ _ (by omega)]
  · intro i j
    by_cases hij : i < N ∧ j < N
    · rw [to_dense_lookup N _ (sq_core_offsets_nodup a b)
          (sq_core_diags_length a b) i j hij.1 hij.2,
        to_dense_lookup N a hand hla i j hij.1 hij.2,
        to_dense_lookup N b hbnd hlb i j hij.1 hij.2,
        sq_core_lookup a b hbnd hlb]
      apply combineDiag_getD _ _ N j hij.2
      · intro v hv
        obtain ⟨l₁, l₂, heq, _⟩ := List.lookup_eq_some_iff.mp hv
        have hmem : ((j : ℤ) - (i : ℤ), v) ∈ a.offsets.zip a.diags := by
          rw [heq]
          simp
        exact hNa v (List.of_mem_zip hmem).2
      · intro v hv
        obtain ⟨l₁, l₂, heq, _⟩ := List.lookup_eq_some_iff.mp hv
        have hmem : ((j : ℤ) - (i : ℤ), v) ∈ b.offsets.zip b.diags := by
          rw [heq]
          simp
        exact hNb v (List.of_mem_zip hmem).2
    · rw [to_dense_out_of_range N _ i j hij, to_dense_out_of_range N a i j hij,
        to_dense_out_of_range N b i j hij, add_zero]
  · intro i j
    by_cases hij : i < N ∧ j < N
    · rw [to_dense_lookup N _ (sq_core_offsets_nodup a b)
          (sq_core_diags_length a b) i j hij.1 hij.2,
        to_dense_lookup N _ (sq_core_offsets_nodup b a)
          (sq_core_diags_length b a) i j hij.1 hij.2,
        sq_core_lookup a b hbnd hlb, sq_core_lookup b a hand hla,
        combineDiag_comm]
    · rw [to_dense_out_of_range N _ i j hij, to_dense_out_of_range N _ i j hij]

/-- Witness for C10: two single-diagonal 1×1 sparse arrays with equal dims. -/
theorem C10_sparse_add_witness :
    (([0] : List ℤ).Nodup ∧ ([0] : List ℤ).Nodup ∧
     ([[(⟨1, 0⟩ : QC)]].length = ([0] : List ℤ).length) ∧
     ([[(⟨2, 0⟩ : QC)]].length = ([0] : List ℤ).length) ∧
     (∀ d ∈ [[(⟨1, 0⟩ : QC)]], d.length = 1) ∧
     (∀ d ∈ [[(⟨2, 0⟩ : QC)]], d.length = 1)) ∧
    ((sq_add_scalar 1 ⟨[0], [[⟨1, 0⟩]], [1]⟩ 0
        = QAddResult.sparse ⟨[0], [[⟨1, 0⟩]], [1]⟩) ∧
     ((1 : QC) ≠ 0 → sq_add_scalar 1 ⟨[0], [[⟨1, 0⟩]], [1]⟩ 1
        = QAddResult.dense (fun i j => to_dense 1 ⟨[0], [[⟨1, 0⟩]], [1]⟩ i j + 1)) ∧
     (sq_add_dense 1 ⟨[0], [[⟨1, 0⟩]], [1]⟩ (fun _ _ => 0)
        = QAddResult.dense (fun i j =>
            to_dense 1 ⟨[0], [[⟨1, 0⟩]], [1]⟩ i j + (fun _ _ => (0 : QC)) i j)) ∧
     ((SparseQArray.mk [0] [[⟨1, 0⟩]] [1]).dims ≠ (SparseQArray.mk [0] [[⟨2, 0⟩]] [1]).dims →
        sq_add_sparse ⟨[0], [[⟨1, 0⟩]], [1]⟩ ⟨[0], [[⟨2, 0⟩]], [1]⟩
          = Except.error "QArrays have incompatible dimensions.") ∧
     ((SparseQArray.mk [0] [[⟨1, 0⟩]] [1]).dims = (SparseQArray.mk [0] [[⟨2, 0⟩]] [1]).dims →
        sq_add_sparse ⟨[0], [[⟨1, 0⟩]], [1]⟩ ⟨[0], [[⟨2, 0⟩]], [1]⟩
          = Except.ok (sq_add_sparse_core ⟨[0], [[⟨1, 0⟩]], [1]⟩ ⟨[0], [[⟨2, 0⟩]], [1]⟩) ∧
        (sq_add_sparse_core ⟨[0], [[⟨1, 0⟩]], [1]⟩ ⟨[0], [[⟨2, 0⟩]], [1]⟩).offsets
          = ((([0] : List ℤ).toFinset ∪ ([0] : List ℤ).toFinset).sort (· ≤ ·)) ∧
        (∀ i j : ℕ,
          to_dense 1 (sq_add_sparse_core ⟨[0], [[⟨1, 0⟩]], [1]⟩ ⟨[0], [[⟨2, 0⟩]], [1]⟩) i j
            = to_dense 1 ⟨[0], [[⟨1, 0⟩]], [1]⟩ i j
              + to_dense 1 ⟨[0], [[⟨2, 0⟩]], [1]⟩ i j) ∧
        (∀ i j : ℕ,
          to_dense 1 (sq_add_sparse_core ⟨[0], [[⟨1, 0⟩]], [1]⟩ ⟨[0], [[⟨2, 0⟩]], [1]⟩) i j
            = to_dense 1 (sq_add_sparse_core ⟨[0], [[⟨2, 0⟩]], [1]⟩ ⟨[0], [[⟨1, 0⟩]], [1]⟩) i j))) :=
  ⟨⟨by decide, by decide, rfl, rfl,
    by intro d hd; simp at hd; subst hd; rfl,
    by intro d hd; simp at hd; subst hd; rfl⟩,
   C10_sparse_add ⟨[0], [[⟨1, 0⟩]], [1]⟩ ⟨[0], [[⟨2, 0⟩]], [1]⟩ 1 (fun _ _ => 0) 1
     (by decide) (by decide) rfl rfl
     (by intro d hd; simp at hd; subst hd; rfl)
     (by intro d hd; simp at hd; subst hd; rfl)⟩

/-! ## C6: the fixed-step solver's save-time validation
(`dynamiqs/solvers/ode/fixed_solver.py`) -/

/-- One entry of `torch.isclose(torch.round(times / dt), times / dt)` with the
default tolerances `rtol = 1e-5`, `atol = 1e-8`:
`|round(t/dt) − t/dt| ≤ atol + rtol·|t/dt|`.  (`torch.round` rounds half to
even, Mathlib's `round` rounds half up; the distance to the nearest integer,
which is all the comparison sees, is the same.) -/
def is_multiple_of_dt (dt t : ℚ) : Bool :=
  decide (|((round (t / dt) : ℤ) : ℚ) - t / dt| ≤ 1e-8 + 1e-5 * |t / dt|)

/-- `_assert_multiple_of_dt` (`dynamiqs/solvers/ode/fixed_solver.py`, lines
15-24): `None` when every time is a multiple of `dt` within tolerance,
otherwise the first offending index (the code raises `ValueError` naming it). -/
def assert_multiple_of_dt (dt : ℚ) (times : List ℚ) : Option ℕ :=
  times.findIdx? (fun t => ! is_multiple_of_dt dt t)

/-- `torch.linspace(t0, t1, num)`. -/
def linspaceQ (t0 t1 : ℚ) (num : ℕ) : List ℚ :=
  (List.range num).map (fun k => t0 + (t1 - t0) * k / (num - 1))

/-- `FixedSolver.integrate` (lines 79-91): subdivide `[t0, t1]` into
`round((t1−t0)/dt)` steps and apply `forward` at each time but the last. -/
def fixed_integrate {St : Type} (fwd : ℚ → St → St) (dt t0 t1 : ℚ) (y : St) : St :=
  let num_times := (round ((t1 - t0) / dt)).toNat + 1
  ((linspaceQ t0 t1 num_times).dropLast).foldl (fun y t => fwd t y) y

/-- `FixedSolver.run_autograd` (lines 47-77): validate `tsave` and `tmeas`
against `dt` first, then integrate from stop to stop, saving after each leg.
The `Except` value is the raised `ValueError` (array name and first offending
index); the `ok` payload is the list of saved states. -/
def fixed_run_autograd {St : Type} (dt : ℚ) (tsave tmeas tstop : List ℚ) (t0 : ℚ)
    (fwd : ℚ → St → St) (y0 : St) : Except (String × ℕ) (List St) :=
  match assert_multiple_of_dt dt tsave with
  | some i => .error ("tsave", i)
  | none =>
    match assert_multiple_of_dt dt tmeas with
    | some i => .error ("tmeas", i)
    | none =>
      .ok ((tstop.foldl
        (fun (a : ℚ × St × List St) ts =>
          let y := fixed_integrate fwd dt a.1 ts a.2.1
          (ts, y, a.2.2 ++ [y]))
        (t0, y0, [])).2.2)

/-- The stop-to-stop integration, written as a plain recursion: the state list
obtained by integrating to each stop time in turn. -/
def run_stops {St : Type} (integ : ℚ → ℚ → St → St) (t0 : ℚ) (y0 : St) :
    List ℚ → List St
  | [] => []
  | ts :: rest => integ t0 ts y0 :: run_stops integ ts (integ t0 ts y0) rest

theorem fold_run_stops {St : Type} (integ : ℚ → ℚ → St → St) :
    ∀ (stops : List ℚ) (t0 : ℚ) (y0 : St) (acc : List St),
    (stops.foldl
        (fun (a : ℚ × St × List St) ts =>
          let y := integ a.1 ts a.2.1
          (ts, y, a.2.2 ++ [y]))
        (t0, y0, acc)).2.2
      = acc ++ run_stops integ t0 y0 stops := by
  intro stops
  induction stops with
  | nil => intro t0 y0 acc; simp [run_stops]
  | cons ts rest ih =>
    intro t0 y0 acc
    rw [List.foldl_cons]
    show (rest.foldl _ (ts, integ t0 ts y0, acc ++ [integ t0 ts y0])).2.2 = _
    rw [ih]
    simp [run_stops]

/-- C6: on a fixed-step run, if some entry of `tsave` (or `tmeas`) is not a
multiple of `dt` within the closeness tolerance, the run raises a `ValueError`
identifying the first offending index, before any integration step is taken
(the result does not depend on the step function or the state) and before
anything is written to the result (the error carries no saved state); when
every entry is a multiple, no error is raised and the integration visits
exactly the given stop times, none of them rounded. -/
theorem C6_fixed_step_time_check {St : Type} (dt : ℚ) (tsave tmeas tstop : List ℚ)
    (t0 : ℚ) (fwd : ℚ → St → St) (y0 : St) :
    ((∃ t ∈ tsave, is_multiple_of_dt dt t = false) →
      ∃ i, fixed_run_autograd dt tsave tmeas tstop t0 fwd y0 = .error ("tsave", i) ∧
        i < tsave.length ∧ is_multiple_of_dt dt (tsave.getD i 0) = false ∧
        ∀ k < i, is_multiple_of_dt dt (tsave.getD k 0) = true) ∧
    ((∀ t ∈ tsave, is_multiple_of_dt dt t = true) →
      (∃ t ∈ tmeas, is_multiple_of_dt dt t = false) →
      ∃ i, fixed_run_autograd dt tsave tmeas tstop t0 fwd y0 = .error ("tmeas", i) ∧
        i < tmeas.length ∧ is_multiple_of_dt dt (tmeas.getD i 0) = false ∧
        ∀ k < i, is_multiple_of_dt dt (tmeas.getD k 0) = true) ∧
    ((∀ t ∈ tsave, is_multiple_of_dt dt t = true) →
      (∀ t ∈ tmeas, is_multiple_of_dt dt t = true) →
      fixed_run_autograd dt tsave tmeas tstop t0 fwd y0
        = .ok (run_stops (fun ta tb y => fixed_integrate fwd dt ta tb y) t0 y0 tstop)) := by
  refine ⟨?_, ?_, ?_⟩
  · rintro ⟨t, ht, hf⟩
    have hsome : (tsave.findIdx? (fun t => ! is_multiple_of_dt dt t)).isSome := by
      rw [List.findIdx?_isSome, List.any_eq_true]
      exact ⟨t, ht, by simp [hf]⟩
    obtain ⟨i, hi⟩ := Option.isSome_iff_exists.mp hsome
    obtain ⟨hlt, hp, hprev⟩ := List.findIdx?_eq_some_iff_getElem.mp hi
    refine ⟨i, ?_, hlt, ?_, ?_⟩
    · simp [fixed_run_autograd, assert_multiple_of_dt, hi]
    · rw [List.getD_eq_getElem?_getD, List.getElem?_eq_getElem hlt]
      simpa using hp
    · intro k hk
      rw [List.getD_eq_getElem?_getD,
        List.getElem?_eq_getElem (Nat.lt_trans hk hlt)]
      have := hprev k hk
      simpa using this
  · intro hall
    rintro ⟨t, ht, hf⟩
    have hnone : tsave.findIdx? (fun t => ! is_multiple_of_dt dt t) = none := by
      rw [List.findIdx?_eq_none_iff]
      intro x hx
      simp [hall x hx]
    have hsome : (tmeas.findIdx? (fun t => ! is_multiple_of_dt dt t)).isSome := by
      rw [List.findIdx?_isSome, List.any_eq_true]
      exact ⟨t, ht, by simp [hf]⟩
    obtain ⟨i, hi⟩ := Option.isSome_iff_exists.mp hsome
    obtain ⟨hlt, hp, hprev⟩ := List.findIdx?_eq_some_iff_getElem.mp hi
    refine ⟨i, ?_, hlt, ?_, ?_⟩
    · simp [fixed_run_autograd, assert_multiple_of_dt, hnone, hi]
    · rw [List.getD_eq_getElem?_getD, List.getElem?_eq_getElem hlt]
      simpa using hp
    · intro k hk
      rw [List.getD_eq_getElem?_getD,
        List.getElem?_eq_getElem (Nat.lt_trans hk hlt)]
      have := hprev k hk
      simpa using this
  · intro h1 h2
    have hnone1 : tsave.findIdx? (fun t => ! is_multiple_of_dt dt t) = none := by
      rw [List.findIdx?_eq_none_iff]
      intro x hx
      simp [h1 x hx]
    have hnone2 : tmeas.findIdx? (fun t => ! is_multiple_of_dt dt t) = none := by
      rw [List.findIdx?_eq_none_iff]
      intro x hx
      simp [h2 x hx]
    simp only [fixed_run_autograd, assert_multiple_of_dt, hnone1, hnone2]
    rw [fold_run_stops]
    rfl

/-- Witness for C6: `dt = 1` with the non-multiple save time `1/2`, and a
well-formed run with save times `{0, 1}`. -/
theorem C6_fixed_step_time_check_witness :
    ((∃ t ∈ ([0, 1/2] : List ℚ), is_multiple_of_dt 1 t = false) ∧
      (∃ i, fixed_run_autograd 1 [0, 1/2] [] [] 0 (fun _ y => y) (0 : ℚ)
          = .error ("tsave", i) ∧
        i < ([0, 1/2] : List ℚ).length ∧
        is_multiple_of_dt 1 (([0, 1/2] : List ℚ).getD i 0) = false ∧
        ∀ k < i, is_multiple_of_dt 1 (([0, 1/2] : List ℚ).getD k 0) = true)) ∧
    ((∀ t ∈ ([0, 1] : List ℚ), is_multiple_of_dt 1 t = true) ∧
      fixed_run_autograd 1 [0, 1] [] [1] 0 (fun _ y => y) (0 : ℚ)
        = .ok (run_stops (fun ta tb y => fixed_integrate (fun _ y => y) 1 ta tb y)
            0 (0 : ℚ) [1])) := by
  have hbad : is_multiple_of_dt 1 (1/2) = false := by
    simp only [is_multiple_of_dt, decide_eq_false_iff_not]
    rw [round_eq]
    norm_num [abs_of_nonneg]
  have hg0 : is_multiple_of_dt 1 0 = true := by
    simp only [is_multiple_of_dt, decide_eq_true_eq]
    rw [round_eq]
    norm_num
  have hg1 : is_multiple_of_dt 1 1 = true := by
    simp only [is_multiple_of_dt, decide_eq_true_eq]
    rw [round_eq]
    norm_num
  have hex : ∃ t ∈ ([0, 1/2] : List ℚ), is_multiple_of_dt 1 t = false :=
    ⟨1/2, by simp, hbad⟩
  have hall : ∀ t ∈ ([0, 1] : List ℚ), is_multiple_of_dt 1 t = true := by
    intro t ht
    simp only [List.mem_cons, List.mem_singleton, List.not_mem_nil, or_false] at ht
    rcases ht with h | h <;> subst h <;> assumption
  exact ⟨⟨hex, (C6_fixed_step_time_check 1 [0, 1/2] [] [] 0 (fun _ y => y) 0).1 hex⟩,
    ⟨hall, (C6_fixed_step_time_check 1 [0, 1] [] [1] 0 (fun _ y => y) 0).2.2 hall
      (by intro t ht; simp at ht)⟩⟩

/-! ## C8: parameter-gradient accumulation in the adjoint backward pass
(`dynamiqs/solvers/ode/adjoint_autograd.py` lines 169, 178, 195-199;
`dynamiqs/solvers/ode/fixed_solver.py` lines 112-143) -/

/-- Modelled from the spec: `add_tuples` (in `dynamiqs/solvers/utils/utils.py`,
not under `src/`) adds gradient tuples elementwise; `none_to_zeros_like`
replaces absent gradients by zeros, so every `dg` has one entry per
parameter. -/
def add_tuples (g dg : List QC) : List QC := List.zipWith (· + ·) g dg

/-- The gradient thread of `AdjointFixedSolver.integrate_augmented`: per inner
time, the augmented state steps backward (`backward_augmented(-t, y, a)`, here
the abstract `B`), the micro-step's local contribution `dg` (the
`torch.autograd.grad` call, here the abstract `dgF` of the time and the new
augmented state) is added onto `g`. -/
def integrate_augmented_g {St : Type} (B : ℚ → St × St → St × St)
    (dgF : ℚ → St × St → List QC) (dt t0 t1 : ℚ) (ya : St × St) (g : List QC) :
    (St × St) × List QC :=
  let num_times := (round ((t1 - t0) / dt)).toNat + 1
  ((linspaceQ t0 t1 num_times).dropLast).foldl
    (fun (acc : (St × St) × List QC) t =>
      let ya1 := B (-t) acc.1
      (ya1, add_tuples acc.2 (dgF t ya1)))
    (ya, g)

/-- `AdjointFixedAutograd.backward`, gradient thread: `g` starts as zeros (one
per parameter), each backward segment accumulates into it through
`integrate_augmented`, the checkpoint adjustments to `(y, a)` between segments
(abstract `adjust`) never touch `g`, and at the end gradients of real-valued
parameters (`flags`) keep only their real part. -/
def adjoint_backward_g {St : Type} (B : ℚ → St × St → St × St)
    (dgF : ℚ → St × St → List QC) (adjust : ℕ → St × St → St × St)
    (flags : List Bool) (dt : ℚ) (tstopRev : List ℚ) (T : ℚ) (ya0 : St × St) :
    List QC :=
  let g0 := List.replicate flags.length (0 : QC)
  let fin := (tstopRev.enum).foldl
    (fun (acc : ℚ × (St × St) × List QC) its =>
      let r := integrate_augmented_g B dgF dt acc.1 its.2 acc.2.1 acc.2.2
      (its.2, adjust its.1 r.1, r.2))
    (T, ya0, g0)
  List.zipWith (fun isFloat gv => if isFloat then QC.reC gv else gv) flags fin.2.2

/-- The same micro-step recursion, collecting the local contributions `dg` in
order instead of summing them. -/
def micro_contribs {St : Type} (B : ℚ → St × St → St × St)
    (dgF : ℚ → St × St → List QC) (times : List ℚ) (ya : St × St)
    (acc : List (List QC)) : (St × St) × List (List QC) :=
  times.foldl
    (fun (p : (St × St) × List (List QC)) t =>
      let ya1 := B (-t) p.1
      (ya1, p.2 ++ [dgF t ya1]))
    (ya, acc)

/-- All micro-step contributions of the whole backward pass, in order. -/
def backward_contribs {St : Type} (B : ℚ → St × St → St × St)
    (dgF : ℚ → St × St → List QC) (adjust : ℕ → St × St → St × St)
    (dt : ℚ) (tstopRev : List ℚ) (T : ℚ) (ya0 : St × St) : List (List QC) :=
  ((tstopRev.enum).foldl
    (fun (acc : ℚ × (St × St) × List (List QC)) its =>
      let num_times := (round ((its.2 - acc.1) / dt)).toNat + 1
      let r := micro_contribs B dgF ((linspaceQ acc.1 its.2 num_times).dropLast)
        acc.2.1 []
      (its.2, adjust its.1 r.1, acc.2.2 ++ r.2))
    (T, ya0, [])).2.2

theorem micro_contribs_acc {St : Type} (B : ℚ → St × St → St × St)
    (dgF : ℚ → St × St → List QC) :
    ∀ (times : List ℚ) (ya : St × St) (acc : List (List QC)),
    micro_contribs B dgF times ya acc
      = ((micro_contribs B dgF times ya []).1,
          acc ++ (micro_contribs B dgF times ya []).2) := by
  intro times
  induction times with
  | nil => intro ya acc; simp [micro_contribs]
  | cons t ts ih =>
    intro ya acc
    simp only [micro_contribs, List.foldl_cons]
    show micro_contribs B dgF ts (B (-t) ya) (acc ++ [dgF t (B (-t) ya)]) = _
    rw [ih _ (acc ++ [dgF t (B (-t) ya)])]
    show _ = ((micro_contribs B dgF ts (B (-t) ya) ([] ++ [dgF t (B (-t) ya)])).1,
      acc ++ (micro_contribs B dgF ts (B (-t) ya) ([] ++ [dgF t (B (-t) ya)])).2)
    rw [ih _ ([] ++ [dgF t (B (-t) ya)])]
    simp

theorem micro_g_split {St : Type} (B : ℚ → St × St → St × St)
    (dgF : ℚ → St × St → List QC) :
    ∀ (times : List ℚ) (ya : St × St) (g : List QC),
    times.foldl
        (fun (acc : (St × St) × List QC) t =>
          let ya1 := B (-t) acc.1
          (ya1, add_tuples acc.2 (dgF t ya1)))
        (ya, g)
      = ((micro_contribs B dgF times ya []).1,
          (micro_contribs B dgF times ya []).2.foldl add_tuples g) := by
  intro times
  induction times with
  | nil => intro ya g; simp [micro_contribs]
  | cons t ts ih =>
    intro ya g
    rw [List.foldl_cons]
    show ts.foldl _ (B (-t) ya, add_tuples g (dgF t (B (-t) ya))) = _
    rw [ih]
    have h2 : micro_contribs B dgF (t :: ts) ya []
        = ((micro_contribs B dgF ts (B (-t) ya) []).1,
            [dgF t (B (-t) ya)] ++ (micro_contribs B dgF ts (B (-t) ya) []).2) := by
      show micro_contribs B dgF ts (B (-t) ya) ([] ++ [dgF t (B (-t) ya)]) = _
      rw [micro_contribs_acc]
      simp
    rw [h2]
    simp

theorem seg_contribs_acc {St : Type} (B : ℚ → St × St → St × St)
    (dgF : ℚ → St × St → List QC) (adjust : ℕ → St × St → St × St) (dt : ℚ) :
    ∀ (items : List (ℕ × ℚ)) (t : ℚ) (ya : St × St) (acc : List (List QC)),
    items.foldl
        (fun (acc : ℚ × (St × St) × List (List QC)) its =>
          let num_times := (round ((its.2 - acc.1) / dt)).toNat + 1
          let r := micro_contribs B dgF ((linspaceQ acc.1 its.2 num_times).dropLast)
            acc.2.1 []
          (its.2, adjust its.1 r.1, acc.2.2 ++ r.2))
        (t, ya, acc)
      = ((items.foldl
          (fun (acc : ℚ × (St × St) × List (List QC)) its =>
            let num_times := (round ((its.2 - acc.1) / dt)).toNat + 1
            let r := micro_contribs B dgF ((linspaceQ acc.1 its.2 num_times).dropLast)
              acc.2.1 []
            (its.2, adjust its.1 r.1, acc.2.2 ++ r.2))
          (t, ya, [])).1,
        (items.foldl
          (fun (acc : ℚ × (St × St) × List (List QC)) its =>
            let num_times := (round ((its.2 - acc.1) / dt)).toNat + 1
            let r := micro_contribs B dgF ((linspaceQ acc.1 its.2 num_times).dropLast)
              acc.2.1 []
            (its.2, adjust its.1 r.1, acc.2.2 ++ r.2))
          (t, ya, [])).2.1,
        acc ++ (items.foldl
          (fun (acc : ℚ × (St × St) × List (List QC)) its =>
            let num_times := (round ((its.2 - acc.1) / dt)).toNat + 1
            let r := micro_contribs B dgF ((linspaceQ acc.1 its.2 num_times).dropLast)
              acc.2.1 []
            (its.2, adjust its.1 r.1, acc.2.2 ++ r.2))
          (t, ya, [])).2.2) := by
  intro items
  induction items with
  | nil => intro t ya acc; simp
  | cons its rest ih =>
    intro t ya acc
    rw [List.foldl_cons, List.foldl_cons]
    show rest.foldl _ (its.2, _, acc ++ _) = _
    rw [ih its.2 _ (acc ++ _), ih its.2 _ ([] ++ _)]
    simp

theorem seg_g_split {St : Type} (B : ℚ → St × St → St × St)
    (dgF : ℚ → St × St → List QC) (adjust : ℕ → St × St → St × St) (dt : ℚ) :
    ∀ (items : List (ℕ × ℚ)) (t : ℚ) (ya : St × St) (g : List QC),
    (items.foldl
        (fun (acc : ℚ × (St × St) × List QC) its =>
          let r := integrate_augmented_g B dgF dt acc.1 its.2 acc.2.1 acc.2.2
          (its.2, adjust its.1 r.1, r.2))
        (t, ya, g)).2.2
      = ((items.foldl
          (fun (acc : ℚ × (St × St) × List (List QC)) its =>
            let num_times := (round ((its.2 - acc.1) / dt)).toNat + 1
            let r := micro_contribs B dgF ((linspaceQ acc.1 its.2 num_times).dropLast)
              acc.2.1 []
            (its.2, adjust its.1 r.1, acc.2.2 ++ r.2))
          (t, ya, [])).2.2).foldl add_tuples g := by
  intro items
  induction items with
  | nil => intro t ya g; simp
  | cons its rest ih =>
    intro t ya g
    rw [List.foldl_cons, List.foldl_cons]
    have hmicro : integrate_augmented_g B dgF dt t its.2 ya g
        = ((micro_contribs B dgF
            ((linspaceQ t its.2 ((round ((its.2 - t) / dt)).toNat + 1)).dropLast) ya []).1,
          (micro_contribs B dgF
            ((linspaceQ t its.2 ((round ((its.2 - t) / dt)).toNat + 1)).dropLast) ya
            []).2.foldl add_tuples g) := by
      simp only [integrate_augmented_g]
      exact micro_g_split B dgF _ ya g
    show (rest.foldl _
        (its.2, adjust its.1 (integrate_augmented_g B dgF dt t its.2 ya g).1,
          (integrate_augmented_g B dgF dt t its.2 ya g).2)).2.2 = _
    rw [hmicro, ih]
    rw [seg_contribs_acc B dgF adjust dt rest its.2 _ ([] ++ _)]
    simp [List.foldl_append]

theorem add_tuples_foldl_length (cs : List (List QC)) :
    ∀ (g : List QC), (∀ c ∈ cs, c.length = g.length) →
    (cs.foldl add_tuples g).length = g.length := by
  induction cs with
  | nil => intro g _; rfl
  | cons c cs ih =>
    intro g hc
    rw [List.foldl_cons]
    have hlen : (add_tuples g c).length = g.length := by
      simp [add_tuples, hc c (by simp)]
    rw [ih _ (fun d hd => by rw [hlen]; exact hc d (by simp [hd])), hlen]

theorem add_tuples_foldl_getD (cs : List (List QC)) :
    ∀ (g : List QC) (k : ℕ), (∀ c ∈ cs, c.length = g.length) → k < g.length →
    (cs.foldl add_tuples g).getD k 0
      = g.getD k 0 + (cs.map (fun c => c.getD k 0)).sum := by
  induction cs with
  | nil => intro g k _ _; simp
  | cons c cs ih =>
    intro g k hc hk
    rw [List.foldl_cons]
    have hclen : c.length = g.length := hc c (by simp)
    have hlen : (add_tuples g c).length = g.length := by simp [add_tuples, hclen]
    rw [ih _ k (fun d hd => by rw [hlen]; exact hc d (by simp [hd])) (by omega)]
    have hstep : (add_tuples g c).getD k 0 = g.getD k 0 + c.getD k 0 := by
      simp only [add_tuples]
      rw [List.getD_eq_getElem?_getD, List.getElem?_zipWith,
        List.getElem?_eq_getElem hk, List.getElem?_eq_getElem (by omega : k < c.length),
        List.getD_eq_getElem?_getD, List.getD_eq_getElem?_getD,
        List.getElem?_eq_getElem hk, List.getElem?_eq_getElem (by omega : k < c.length)]
      rfl
    rw [hstep, List.map_cons, List.sum_cons, add_assoc]

theorem micro_contribs_mem {St : Type} (B : ℚ → St × St → St × St)
    (dgF : ℚ → St × St → List QC) :
    ∀ (times : List ℚ) (ya : St × St) (acc : List (List QC)) (c : List QC),
    c ∈ (micro_contribs B dgF times ya acc).2 → c ∈ acc ∨ ∃ t ya1, c = dgF t ya1 := by
  intro times
  induction times with
  | nil => intro ya acc c hc; exact Or.inl hc
  | cons t ts ih =>
    intro ya acc c hc
    have hc2 : c ∈ (micro_contribs B dgF ts (B (-t) ya) (acc ++ [dgF t (B (-t) ya)])).2 := hc
    rcases ih _ _ c hc2 with h | h
    · rcases List.mem_append.mp h with h2 | h2
      · exact Or.inl h2
      · exact Or.inr ⟨t, B (-t) ya, by simpa using h2⟩
    · exact Or.inr h

theorem seg_contribs_mem {St : Type} (B : ℚ → St × St → St × St)
    (dgF : ℚ → St × St → List QC) (adjust : ℕ → St × St → St × St) (dt : ℚ) :
    ∀ (items : List (ℕ × ℚ)) (t : ℚ) (ya : St × St) (acc : List (List QC)) (c : List QC),
    c ∈ (items.foldl
        (fun (acc : ℚ × (St × St) × List (List QC)) its =>
          let num_times := (round ((its.2 - acc.1) / dt)).toNat + 1
          let r := micro_contribs B dgF ((linspaceQ acc.1 its.2 num_times).dropLast)
            acc.2.1 []
          (its.2, adjust its.1 r.1, acc.2.2 ++ r.2))
        (t, ya, acc)).2.2 → c ∈ acc ∨ ∃ tq ya1, c = dgF tq ya1 := by
  intro items
  induction items with
  | nil => intro t ya acc c hc; exact Or.inl hc
  | cons its rest ih =>
    intro t ya acc c hc
    rw [List.foldl_cons] at hc
    rcases ih _ _ _ c hc with h | h
    · rcases List.mem_append.mp h with h2 | h2
      · exact Or.inl h2
      · rcases micro_contribs_mem B dgF _ _ [] c h2 with h3 | h3
        · simp at h3
        · exact Or.inr h3
    · exact Or.inr h

/-- **C8.** In the adjoint backward pass
(`AdjointFixedAutograd.backward` with `AdjointFixedSolver.integrate_augmented`),
the parameter-gradient tuple `g` starts as zeros and is only ever updated by
`add_tuples` with each micro-step's local contribution `dg`, strictly
sequentially across all backward segments: for every parameter index `k`, the
returned gradient equals the plain sum of all micro-step contributions at `k`,
wrapped in a real-part extraction exactly when the parameter's dtype flag is
floating-point (real), and returned unchanged when it is complex. -/
theorem C8_gradient_accumulation {St : Type} (B : ℚ → St × St → St × St)
    (dgF : ℚ → St × St → List QC) (adjust : ℕ → St × St → St × St)
    (flags : List Bool) (dt : ℚ) (tstopRev : List ℚ) (T : ℚ) (ya0 : St × St)
    (hdg : ∀ t ya, (dgF t ya).length = flags.length) (k : ℕ)
    (hk : k < flags.length) :
    (adjoint_backward_g B dgF adjust flags dt tstopRev T ya0).getD k 0
      = (if flags.getD k false then
          QC.reC (((backward_contribs B dgF adjust dt tstopRev T ya0).map
            (fun c => c.getD k 0)).sum)
        else
          ((backward_contribs B dgF adjust dt tstopRev T ya0).map
            (fun c => c.getD k 0)).sum) := by
  have hmem : ∀ c ∈ backward_contribs B dgF adjust dt tstopRev T ya0,
      c.length = (List.replicate flags.length (0 : QC)).length := by
    intro c hcmem
    rw [List.length_replicate]
    rcases seg_contribs_mem B dgF adjust dt tstopRev.enum T ya0 [] c hcmem with
      h | ⟨tq, ya1, rfl⟩
    · simp at h
    · exact hdg tq ya1
  have hg2 : adjoint_backward_g B dgF adjust flags dt tstopRev T ya0
      = List.zipWith (fun isFloat gv => if isFloat then QC.reC gv else gv) flags
          ((backward_contribs B dgF adjust dt tstopRev T ya0).foldl add_tuples
            (List.replicate flags.length (0 : QC))) := by
    show List.zipWith _ flags
        ((tstopRev.enum.foldl
          (fun (acc : ℚ × (St × St) × List QC) its =>
            let r := integrate_augmented_g B dgF dt acc.1 its.2 acc.2.1 acc.2.2
            (its.2, adjust its.1 r.1, r.2))
          (T, ya0, List.replicate flags.length (0 : QC))).2.2) = _
    rw [seg_g_split B dgF adjust dt tstopRev.enum T ya0
      (List.replicate flags.length (0 : QC))]
    rfl
  have hlenfin : ((backward_contribs B dgF adjust dt tstopRev T ya0).foldl
      add_tuples (List.replicate flags.length (0 : QC))).length = flags.length := by
    rw [add_tuples_foldl_length _ _ hmem, List.length_replicate]
  have hfold : ((backward_contribs B dgF adjust dt tstopRev T ya0).foldl
      add_tuples (List.replicate flags.length (0 : QC))).getD k 0
      = ((backward_contribs B dgF adjust dt tstopRev T ya0).map
          (fun c => c.getD k 0)).sum := by
    rw [add_tuples_foldl_getD _ _ k hmem (by rw [List.length_replicate]; exact hk)]
    rw [List.getD_eq_getElem?_getD, List.getElem?_replicate, if_pos hk]
    simp
  rw [hg2, List.getD_eq_getElem?_getD, List.getElem?_zipWith,
    List.getElem?_eq_getElem hk, List.getElem?_eq_getElem (by omega : k <
      ((backward_contribs B dgF adjust dt tstopRev T ya0).foldl add_tuples
        (List.replicate flags.length (0 : QC))).length)]
  show (if flags[k] then QC.reC _ else _) = _
  have hb : k < ((backward_contribs B dgF adjust dt tstopRev T ya0).foldl
      add_tuples (List.replicate flags.length (0 : QC))).length := by omega
  have hflags : flags[k] = flags.getD k false := by
    rw [List.getD_eq_getElem?_getD, List.getElem?_eq_getElem hk]; rfl
  have hfk : ((backward_contribs B dgF adjust dt tstopRev T ya0).foldl
      add_tuples (List.replicate flags.length (0 : QC)))[k]
      = ((backward_contribs B dgF adjust dt tstopRev T ya0).foldl
        add_tuples (List.replicate flags.length (0 : QC))).getD k 0 := by
    rw [List.getD_eq_getElem?_getD, List.getElem?_eq_getElem hb]; rfl
  rw [hflags, hfk, hfold]

/-- Witness for C8: two parameters, the first real-flagged and the second
complex-flagged, with a one-segment backward pass over `St = ℚ`. -/
theorem C8_gradient_accumulation_witness :
    (∀ (t : ℚ) (ya : ℚ × ℚ),
        (([QC.I, QC.reC ⟨ya.1, 0⟩ * QC.reC ⟨t, 0⟩] : List QC)).length
          = ([true, false] : List Bool).length) ∧
    0 < ([true, false] : List Bool).length ∧
    (adjoint_backward_g (fun t ya => (ya.1 + t, ya.2))
        (fun t ya => [QC.I, QC.reC ⟨ya.1, 0⟩ * QC.reC ⟨t, 0⟩])
        (fun _ ya => ya) [true, false] 1 [1] 0 ((1 : ℚ), (0 : ℚ))).getD 0 0
      = (if ([true, false] : List Bool).getD 0 false then
          QC.reC (((backward_contribs (fun t ya => (ya.1 + t, ya.2))
            (fun t ya => [QC.I, QC.reC ⟨ya.1, 0⟩ * QC.reC ⟨t, 0⟩])
            (fun _ ya => ya) 1 [1] 0 ((1 : ℚ), (0 : ℚ))).map
              (fun c => c.getD 0 0)).sum)
        else
          ((backward_contribs (fun t ya => (ya.1 + t, ya.2))
            (fun t ya => [QC.I, QC.reC ⟨ya.1, 0⟩ * QC.reC ⟨t, 0⟩])
            (fun _ ya => ya) 1 [1] 0 ((1 : ℚ), (0 : ℚ))).map
              (fun c => c.getD 0 0)).sum) :=
  ⟨fun _ _ => rfl, by decide,
    C8_gradient_accumulation (fun t ya => (ya.1 + t, ya.2))
      (fun t ya => [QC.I, QC.reC ⟨ya.1, 0⟩ * QC.reC ⟨t, 0⟩])
      (fun _ ya => ya) [true, false] 1 [1] 0 ((1 : ℚ), (0 : ℚ))
      (fun _ _ => rfl) 0 (by decide)⟩

/-! ## C4: checkpoint replay in `AdjointFixedAutograd.backward`
(`dynamiqs/solvers/ode/adjoint_autograd.py` lines 139-202). The embedding
covers the `save_states=True` configuration, in which the forward pass saved
one checkpoint per save time (the claim's premise: checkpoints exist). -/

/-- Python sequence indexing: a negative index `k` addresses position
`len + k`. -/
def pyGet {α : Type} (xs : List α) (d : α) (k : ℤ) : α :=
  if k < 0 then xs.getD ((xs.length : ℤ) + k).toNat d else xs.getD k.toNat d

/-- Modelled from the spec: `Solver.t_stop_backward` is not under `src/`;
per the spec's checkpoint replay (each stop re-anchors `y` to a
forward-saved checkpoint, consistent with the code's `y_save[..., -i-2]`
indexing), the backward stop times are the save times without the final
one. -/
def t_stop_backward (tsave : List ℚ) : List ℚ := tsave.dropLast

/-- The expectation-gradient contribution
`(grad_y[1][..., :, k, None, None] * exp_ops.mH).sum(dim=-3)` at Python time
index `k`: one incoming scalar gradient per observable times the adjoint of
that observable, summed over observables. -/
def expTerm {n : ℕ} (ops : List (Mat n)) (gradE : List (List QC)) (k : ℤ) :
    Mat n :=
  ((gradE.zip ops).map (fun p => pyGet p.1 0 k • p.2ᴴ)).sum

/-- The same contribution at a plain (non-negative) time index `j`. -/
def expTermAt {n : ℕ} (ops : List (Mat n)) (gradE : List (List QC)) (j : ℕ) :
    Mat n :=
  ((gradE.zip ops).map (fun p => p.1.getD j 0 • p.2ᴴ)).sum

/-- `AdjointFixedAutograd.backward` with `save_states=True`: the state after
`i` iterations of the checkpoint loop, as `(t, y, a, g)`. Iteration `0` is the
initialization (`y = y_save[..., -1]`, `a = grad_y[0][..., -1]` plus the
expectation term when `exp_ops` is nonempty, `t = t_save[-1]`); iteration
`i+1` integrates the augmented system (abstract `IA`) from the current time to
the `i`-th entry of the reversed stop list, then replaces `y` by
`y_save[..., -i-2]`, adds `grad_y[0][..., -i-2]` to `a`, adds the expectation
term at index `-i-2` when `exp_ops` is nonempty, and sets `t = ts`. -/
def adjoint_backward_iter {n : ℕ} {G : Type}
    (IA : ℚ → ℚ → Mat n × Mat n × G → Mat n × Mat n × G)
    (ysave gradY : List (Mat n)) (ops : List (Mat n)) (gradE : List (List QC))
    (tsave : List ℚ) (g0 : G) : ℕ → ℚ × Mat n × Mat n × G
  | 0 =>
    (pyGet tsave 0 (-1), pyGet ysave 0 (-1),
      (if 0 < ops.length
        then pyGet gradY 0 (-1) + expTerm ops gradE (-1)
        else pyGet gradY 0 (-1)), g0)
  | (i + 1) =>
    let prev := adjoint_backward_iter IA ysave gradY ops gradE tsave g0 i
    let ts := (t_stop_backward tsave).reverse.getD i 0
    let r := IA prev.1 ts prev.2
    let y2 := pyGet ysave 0 (-(i : ℤ) - 2)
    let a2 := r.2.1 + pyGet gradY 0 (-(i : ℤ) - 2)
    let a3 := if 0 < ops.length
      then a2 + expTerm ops gradE (-(i : ℤ) - 2) else a2
    (ts, y2, a3, r.2.2)

theorem pyGet_neg {α : Type} (xs : List α) (d : α) (m : ℕ) (hm0 : 0 < m)
    (hm : m ≤ xs.length) :
    pyGet xs d (-(m : ℤ)) = xs.getD (xs.length - m) d := by
  have hneg : (-(m : ℤ)) < 0 := by omega
  have htn : ((xs.length : ℤ) + -(m : ℤ)).toNat = xs.length - m := by omega
  rw [pyGet, if_pos hneg, htn]

theorem expTerm_neg {n : ℕ} (ops : List (Mat n)) (gradE : List (List QC))
    (m N : ℕ) (hge : ∀ r ∈ gradE, r.length = N) (hm0 : 0 < m) (hmN : m ≤ N) :
    expTerm ops gradE (-(m : ℤ)) = expTermAt ops gradE (N - m) := by
  rw [expTerm, expTermAt]
  congr 1
  apply List.map_congr_left
  intro p hp
  obtain ⟨p1, p2⟩ := p
  have hp1 : p1 ∈ gradE := (List.of_mem_zip hp).1
  rw [pyGet_neg p1 0 m hm0 (by rw [hge p1 hp1]; exact hmN), hge p1 hp1]

theorem dropLast_reverse_getD (tsave : List ℚ) (i : ℕ)
    (hi : i < tsave.dropLast.length) :
    (tsave.dropLast).reverse.getD i 0 = tsave.getD (tsave.length - 2 - i) 0 := by
  rw [List.getD_eq_getElem?_getD, List.getElem?_reverse hi]
  have hlen : tsave.dropLast.length = tsave.length - 1 := List.length_dropLast _
  rw [hlen] at hi
  have hj : tsave.dropLast.length - 1 - i = tsave.length - 2 - i := by
    rw [hlen]; omega
  rw [hj, List.dropLast_eq_take, List.getElem?_take,
    if_pos (by omega : tsave.length - 2 - i < tsave.length - 1),
    List.getD_eq_getElem?_getD]

theorem adjoint_backward_iter_time {n : ℕ} {G : Type}
    (IA : ℚ → ℚ → Mat n × Mat n × G → Mat n × Mat n × G)
    (ysave gradY ops : List (Mat n)) (gradE : List (List QC))
    (tsave : List ℚ) (g0 : G) (i : ℕ) (h : i < tsave.length) :
    (adjoint_backward_iter IA ysave gradY ops gradE tsave g0 i).1
      = tsave.getD (tsave.length - 1 - i) 0 := by
  cases i with
  | zero =>
    show pyGet tsave 0 (-1) = _
    rw [show (-1 : ℤ) = -((1 : ℕ) : ℤ) from by norm_num,
      pyGet_neg tsave 0 1 (by omega) (by omega)]
    congr 1
  | succ i =>
    show tsave.dropLast.reverse.getD i 0 = _
    rw [dropLast_reverse_getD tsave i (by rw [List.length_dropLast]; omega)]
    congr 1
    omega

/-- **C4.** In `AdjointFixedAutograd.backward` (with `save_states=True`, so
forward checkpoints exist), the checkpoint times are visited in reverse
chronological order: the `i`-th visited stop time is `t_save[N-2-i]` and,
for strictly increasing save times, the current time strictly decreases at
every iteration. Upon reaching each stop time, after integrating the
augmented system `(y, a, g)` backward to it, `y` is replaced by the
forward-saved checkpoint at exactly that time (`y_save[..., -i-2]` is
`y_save[N-2-i]`, the checkpoint of the visited time `t_save[N-2-i]`), the
adjoint becomes the integrated adjoint plus the incoming state gradient
`grad_y[0][..., -i-2]` plus, exactly when expectation operators are present,
the sum over observables of that time's expectation gradient times the
observable's adjoint; the parameter gradient is passed through from the
augmented integration unchanged. -/
theorem C4_adjoint_checkpoint_backward {n : ℕ} {G : Type}
    (IA : ℚ → ℚ → Mat n × Mat n × G → Mat n × Mat n × G)
    (ysave gradY ops : List (Mat n)) (gradE : List (List QC))
    (tsave : List ℚ) (g0 : G)
    (hy : ysave.length = tsave.length) (hgy : gradY.length = tsave.length)
    (hge : ∀ r ∈ gradE, r.length = tsave.length)
    (hmono : List.Sorted (· < ·) tsave)
    (i : ℕ) (hi : i + 1 < tsave.length) :
    (t_stop_backward tsave).reverse.getD i 0
        = tsave.getD (tsave.length - 2 - i) 0 ∧
    (adjoint_backward_iter IA ysave gradY ops gradE tsave g0 (i + 1)).1
        = tsave.getD (tsave.length - 2 - i) 0 ∧
    (adjoint_backward_iter IA ysave gradY ops gradE tsave g0 (i + 1)).2.1
        = ysave.getD (tsave.length - 2 - i) 0 ∧
    (adjoint_backward_iter IA ysave gradY ops gradE tsave g0 (i + 1)).2.2.1
        = (IA (adjoint_backward_iter IA ysave gradY ops gradE tsave g0 i).1
            (tsave.getD (tsave.length - 2 - i) 0)
            (adjoint_backward_iter IA ysave gradY ops gradE tsave g0 i).2).2.1
          + gradY.getD (tsave.length - 2 - i) 0
          + (if 0 < ops.length
              then expTermAt ops gradE (tsave.length - 2 - i) else 0) ∧
    (adjoint_backward_iter IA ysave gradY ops gradE tsave g0 (i + 1)).2.2.2
        = (IA (adjoint_backward_iter IA ysave gradY ops gradE tsave g0 i).1
            (tsave.getD (tsave.length - 2 - i) 0)
            (adjoint_backward_iter IA ysave gradY ops gradE tsave g0 i).2).2.2 ∧
    (adjoint_backward_iter IA ysave gradY ops gradE tsave g0 (i + 1)).1
        < (adjoint_backward_iter IA ysave gradY ops gradE tsave g0 i).1 := by
  have hts : (t_stop_backward tsave).reverse.getD i 0
      = tsave.getD (tsave.length - 2 - i) 0 :=
    dropLast_reverse_getD tsave i (by rw [List.length_dropLast]; omega)
  have hneg2 : (-(i : ℤ) - 2) = -(((i + 2 : ℕ)) : ℤ) := by push_cast; ring
  have hyget : pyGet ysave 0 (-(i : ℤ) - 2)
      = ysave.getD (tsave.length - 2 - i) 0 := by
    rw [hneg2, pyGet_neg ysave 0 (i + 2) (by omega) (by omega)]
    congr 1
    omega
  have hgyget : pyGet gradY 0 (-(i : ℤ) - 2)
      = gradY.getD (tsave.length - 2 - i) 0 := by
    rw [hneg2, pyGet_neg gradY 0 (i + 2) (by omega) (by omega)]
    congr 1
    omega
  have hexp : expTerm ops gradE (-(i : ℤ) - 2)
      = expTermAt ops gradE (tsave.length - 2 - i) := by
    have hidx : tsave.length - (i + 2) = tsave.length - 2 - i := by omega
    rw [hneg2, expTerm_neg ops gradE (i + 2) tsave.length hge (by omega)
      (by omega), hidx]
  refine ⟨hts, ?_, ?_, ?_, ?_, ?_⟩
  · show tsave.dropLast.reverse.getD i 0 = _
    exact hts
  · show pyGet ysave 0 (-(i : ℤ) - 2) = _
    exact hyget
  · show (if 0 < ops.length
        then (IA _ (tsave.dropLast.reverse.getD i 0) _).2.1
            + pyGet gradY 0 (-(i : ℤ) - 2) + expTerm ops gradE (-(i : ℤ) - 2)
        else (IA _ (tsave.dropLast.reverse.getD i 0) _).2.1
            + pyGet gradY 0 (-(i : ℤ) - 2)) = _
    rw [show tsave.dropLast.reverse.getD i 0
        = (t_stop_backward tsave).reverse.getD i 0 from rfl, hts, hgyget, hexp]
    split_ifs with h
    · rfl
    · rw [add_zero]
  · show (IA _ (tsave.dropLast.reverse.getD i 0) _).2.2 = _
    rw [show tsave.dropLast.reverse.getD i 0
        = (t_stop_backward tsave).reverse.getD i 0 from rfl, hts]
  · rw [adjoint_backward_iter_time IA ysave gradY ops gradE tsave g0 i
      (by omega)]
    show tsave.dropLast.reverse.getD i 0 < _
    rw [show tsave.dropLast.reverse.getD i 0
        = (t_stop_backward tsave).reverse.getD i 0 from rfl, hts]
    have h1 : tsave.length - 2 - i < tsave.length := by omega
    have h2 : tsave.length - 1 - i < tsave.length := by omega
    have e1 : tsave.getD (tsave.length - 2 - i) 0 = tsave.get ⟨_, h1⟩ := by
      rw [List.getD_eq_getElem?_getD, List.getElem?_eq_getElem h1]
      rfl
    have e2 : tsave.getD (tsave.length - 1 - i) 0 = tsave.get ⟨_, h2⟩ := by
      rw [List.getD_eq_getElem?_getD, List.getElem?_eq_getElem h2]
      rfl
    rw [e1, e2]
    exact hmono.get_strictMono (Fin.mk_lt_mk.mpr (by omega))

/-- Witness for C4: three save times `[0, 1, 2]` with matching checkpoint and
gradient lists over `1x1` matrices, no expectation operators, identity
augmented integration, at loop iteration `i = 0`. -/
theorem C4_adjoint_checkpoint_backward_witness :
    (([0, 1, 0] : List (Mat 1)).length = ([0, 1, 2] : List ℚ).length) ∧
    (([0, 0, 1] : List (Mat 1)).length = ([0, 1, 2] : List ℚ).length) ∧
    (∀ r ∈ ([] : List (List QC)), r.length = ([0, 1, 2] : List ℚ).length) ∧
    List.Sorted (· < ·) ([0, 1, 2] : List ℚ) ∧
    0 + 1 < ([0, 1, 2] : List ℚ).length ∧
    ((t_stop_backward [0, 1, 2]).reverse.getD 0 0
        = ([0, 1, 2] : List ℚ).getD (([0, 1, 2] : List ℚ).length - 2 - 0) 0 ∧
      (adjoint_backward_iter (fun _ _ s => s) ([0, 1, 0] : List (Mat 1))
              [0, 0, 1] ([] : List (Mat 1)) ([] : List (List QC))
          [0, 1, 2] (0 : ℚ) (0 + 1)).1
        = ([0, 1, 2] : List ℚ).getD (([0, 1, 2] : List ℚ).length - 2 - 0) 0 ∧
      (adjoint_backward_iter (fun _ _ s => s) ([0, 1, 0] : List (Mat 1))
              [0, 0, 1] ([] : List (Mat 1)) ([] : List (List QC))
          [0, 1, 2] (0 : ℚ) (0 + 1)).2.1
        = ([0, 1, 0] : List (Mat 1)).getD
            (([0, 1, 2] : List ℚ).length - 2 - 0) 0 ∧
      (adjoint_backward_iter (fun _ _ s => s) ([0, 1, 0] : List (Mat 1))
              [0, 0, 1] ([] : List (Mat 1)) ([] : List (List QC))
          [0, 1, 2] (0 : ℚ) (0 + 1)).2.2.1
        = ((fun (_ : ℚ) (_ : ℚ) (s : Mat 1 × Mat 1 × ℚ) => s)
            (adjoint_backward_iter (fun _ _ s => s) ([0, 1, 0] : List (Mat 1))
              [0, 0, 1] ([] : List (Mat 1)) ([] : List (List QC))
              [0, 1, 2] (0 : ℚ) 0).1
            (([0, 1, 2] : List ℚ).getD (([0, 1, 2] : List ℚ).length - 2 - 0) 0)
            (adjoint_backward_iter (fun _ _ s => s) ([0, 1, 0] : List (Mat 1))
              [0, 0, 1] ([] : List (Mat 1)) ([] : List (List QC))
              [0, 1, 2] (0 : ℚ) 0).2).2.1
          + ([0, 0, 1] : List (Mat 1)).getD
              (([0, 1, 2] : List ℚ).length - 2 - 0) 0
          + (if 0 < ([] : List (Mat 1)).length
              then expTermAt ([] : List (Mat 1)) ([] : List (List QC))
                (([0, 1, 2] : List ℚ).length - 2 - 0) else 0) ∧
      (adjoint_backward_iter (fun _ _ s => s) ([0, 1, 0] : List (Mat 1))
              [0, 0, 1] ([] : List (Mat 1)) ([] : List (List QC))
          [0, 1, 2] (0 : ℚ) (0 + 1)).2.2.2
        = ((fun (_ : ℚ) (_ : ℚ) (s : Mat 1 × Mat 1 × ℚ) => s)
            (adjoint_backward_iter (fun _ _ s => s) ([0, 1, 0] : List (Mat 1))
              [0, 0, 1] ([] : List (Mat 1)) ([] : List (List QC))
              [0, 1, 2] (0 : ℚ) 0).1
            (([0, 1, 2] : List ℚ).getD (([0, 1, 2] : List ℚ).length - 2 - 0) 0)
            (adjoint_backward_iter (fun _ _ s => s) ([0, 1, 0] : List (Mat 1))
              [0, 0, 1] ([] : List (Mat 1)) ([] : List (List QC))
              [0, 1, 2] (0 : ℚ) 0).2).2.2 ∧
      (adjoint_backward_iter (fun _ _ s => s) ([0, 1, 0] : List (Mat 1))
              [0, 0, 1] ([] : List (Mat 1)) ([] : List (List QC))
          [0, 1, 2] (0 : ℚ) (0 + 1)).1
        < (adjoint_backward_iter (fun _ _ s => s) ([0, 1, 0] : List (Mat 1))
              [0, 0, 1] ([] : List (Mat 1)) ([] : List (List QC))
            [0, 1, 2] (0 : ℚ) 0).1) :=
  ⟨rfl, rfl, fun r hr => absurd hr (List.not_mem_nil r), by decide, by decide,
    C4_adjoint_checkpoint_backward (fun _ _ s => s) [0, 1, 0] [0, 0, 1] [] []
      [0, 1, 2] (0 : ℚ) rfl rfl (fun r hr => absurd hr (List.not_mem_nil r))
      (by decide) 0 (by decide)⟩
